import Mathlib

/-!
Verification of the deck-search / composition-counting / game-simulation core
of the Mtg-optimize repository (src/mtg_optimize/card.py, search.py,
simulator.py), as a shallow embedding in Lean 4.

Conventions of the embedding:
* Python non-negative ints that hold card counts, deck sizes and cutoffs are
  modelled as Nat (the spec restricts attention to inputs passing basic
  range validation: non-negative counts).
* Python float impact scores are modelled as Int; no verified claim depends
  on fractional values (floats never steer control flow in the claims below,
  they are only accumulated).
* The pseudo-random generator is modelled by explicit shuffle parameters:
  a seeded random.Random is a deterministic stream, so every behaviour of
  the Python code is an instance of the embedding for some choice of
  permutation-producing functions.
* Fallible operations (list.pop() from an empty list) are modelled with
  Option: a result of none models a raised IndexError.
-/

namespace Mtg

/-- Color symbols are one-letter strings such as "G", "U" or "C". -/
abbrev Color := String

/-- Character-list version of Python's substring test (needle in haystack). -/
def charsStartWith : List Char → List Char → Bool
  | [], _ => true
  | _ :: _, [] => false
  | p :: ps, c :: cs => p = c && charsStartWith ps cs

/-- Substring containment on character lists. -/
def charsContain (pat : List Char) : List Char → Bool
  | [] => pat.isEmpty
  | c :: cs => charsStartWith pat (c :: cs) || charsContain pat cs

/-- Lower-cased characters of a string (Python str.lower for ASCII names). -/
def lowerChars (s : String) : List Char := s.toList.map Char.toLower

/-- Card, mirroring the dataclass in card.py together with the extra fields
(mana_cost_symbols, generic_cost, produced_mana, enters_tapped, impact_score)
that decklist.py constructs and simulator.py reads. -/
structure Card where
  name : String
  type_line : String
  mana_cost : Nat := 0
  colors : List Color := []
  power : Option Int := none
  toughness : Option Int := none
  tags : List String := []
  is_basic_land : Bool := false
  mana_cost_symbols : List String := []
  generic_cost : Nat := 0
  produced_mana : List Color := []
  enters_tapped : Bool := false
  impact_score : Int := 0
deriving DecidableEq, Repr

/-- Python: "land" in self.type_line.lower(). -/
def Card.is_land (c : Card) : Bool := charsContain ("land".toList) (lowerChars c.type_line)

/-- Python: "creature" in self.type_line.lower(). -/
def Card.is_creature (c : Card) : Bool :=
  charsContain ("creature".toList) (lowerChars c.type_line)

/-- CardChoice: a card together with the inclusive count range the search may
pick for it. -/
structure CardChoice where
  card : Card
  min_count : Nat
  max_count : Nat
deriving DecidableEq, Repr

/-- Python range(min_count, max_count + 1), in ascending order. -/
def choiceTakes (ch : CardChoice) : List Nat :=
  List.range' ch.min_count (ch.max_count + 1 - ch.min_count)

/-- DeckRules: optional aggregate land/creature bounds (search.py). -/
structure DeckRules where
  min_lands : Option Nat := none
  max_lands : Option Nat := none
  min_creatures : Option Nat := none
  max_creatures : Option Nat := none
deriving DecidableEq, Repr

/-- Helper: value strictly below an optional lower bound. -/
def belowMin (v : Nat) : Option Nat → Bool
  | none => false
  | some m => decide (v < m)

/-- Helper: value strictly above an optional upper bound. -/
def aboveMax (v : Nat) : Option Nat → Bool
  | none => false
  | some m => decide (m < v)

/-- DeckRules.validate: false iff some configured bound is violated. -/
def DeckRules.validate (r : DeckRules) (lands creatures : Nat) : Bool :=
  !(belowMin lands r.min_lands) && !(aboveMax lands r.max_lands) &&
    !(belowMin creatures r.min_creatures) && !(aboveMax creatures r.max_creatures)

/-- Python's (x or default) idiom on an optional integer field: none and the
number 0 are both falsy and fall back to the default. -/
def pyOrNat : Option Nat → Nat → Nat
  | none, d => d
  | some v, d => if v = 0 then d else v

/-- LandPermanent: a land on the battlefield with its tapped flag. -/
structure LandPermanent where
  card : Card
  tapped : Bool := false
deriving DecidableEq, Repr

/-- Placeholder card used only for out-of-range list indexing, which the
source never performs on the paths modelled here. -/
def dummyCard : Card :=
  { name := "", type_line := "" }

/-- Placeholder land permanent for out-of-range indexing (never reached). -/
def dummyLand : LandPermanent := { card := dummyCard, tapped := true }

/-- Python _produced_colors: land.card.produced_mana or ("C",). -/
def produced_colors (l : LandPermanent) : List Color :=
  if l.card.produced_mana = [] then ["C"] else l.card.produced_mana

/-- Indices of untapped lands, in order (simulator.py line building
untapped_indices), starting the position count at i0. -/
def untappedIndicesFrom : Nat → List LandPermanent → List Nat
  | _, [] => []
  | i, l :: ls =>
    if l.tapped then untappedIndicesFrom (i + 1) ls
    else i :: untappedIndicesFrom (i + 1) ls

/-- Python: [i for i, land in enumerate(lands) if not land.tapped]. -/
def untappedIndices (lands : List LandPermanent) : List Nat :=
  untappedIndicesFrom 0 lands

/-- First-success iteration: returns the first some produced by f over the
list, modelling a Python for loop whose body returns on success. -/
def firstSome {α β : Type} : List α → (α → Option β) → Option β
  | [], _ => none
  | a :: as, f =>
    match f a with
    | some b => some b
    | none => firstSome as f

/-- Depth-first colored-requirement assignment (the inner backtrack of
_plan_payment): one untapped, not-yet-used land per requirement whose
produced colors meet the requirement; used pairs are accumulated in order. -/
def coloredBacktrack (lands : List LandPermanent) :
    List (List Color) → List (Nat × Color) → Option (List (Nat × Color))
  | [], used => some used
  | need :: rest, used =>
    firstSome (untappedIndices lands) (fun idx =>
      if used.any (fun u => u.1 = idx) then none
      else
        firstSome (produced_colors (lands.getD idx dummyLand)) (fun color =>
          if color ∈ need then coloredBacktrack lands rest (used ++ [(idx, color)])
          else none))

/-- Generic-cost payment loop of _plan_payment: walk the untapped indices in
order, skip those used by the colored plan, spend one land per unit of
remaining generic cost; returns the pairs collected and the generic cost
still unpaid. -/
def genericLoop (lands : List LandPermanent) (usedIdx : List Nat) :
    List Nat → Nat → (List (Nat × Color) × Nat)
  | [], g => ([], g)
  | idx :: rest, g =>
    if idx ∈ usedIdx then genericLoop lands usedIdx rest g
    else if g = 0 then ([], 0)
    else
      let produced := produced_colors (lands.getD idx dummyLand)
      let colorUsed := produced.headD "C"
      let (p, g') := genericLoop lands usedIdx rest (g - 1)
      ((idx, colorUsed) :: p, g')

/-- Python _plan_payment: colored assignment first, then generic payment from
the remaining untapped lands in encounter order. -/
def plan_payment (requirements : List (List Color)) (generic : Nat)
    (lands : List LandPermanent) : Option (List (Nat × Color)) :=
  match coloredBacktrack lands requirements [] with
  | none => none
  | some coloredPlan =>
    let usedIdx := coloredPlan.map Prod.fst
    let res := genericLoop lands usedIdx (untappedIndices lands) generic
    if 0 < res.2 then none else some (coloredPlan ++ res.1)

/-- Python _cost_requirements: itemized colored symbols, plus the generic
cost; a card with a positive mana cost but no itemized symbols and no
recorded generic cost is charged entirely as generic. -/
def cost_requirements (card : Card) : List (List Color) × Nat :=
  let requirements := card.mana_cost_symbols.map (fun s => if s = "C" then ["C"] else [s])
  let generic :=
    if requirements = [] ∧ card.generic_cost = 0 ∧ card.mana_cost ≠ 0 then card.mana_cost
    else card.generic_cost
  (requirements, generic)

/-- Python _can_pay_for_spell: feasibility probe, no state change. -/
def can_pay_for_spell (card : Card) (lands : List LandPermanent) : Bool :=
  (plan_payment (cost_requirements card).1 (cost_requirements card).2 lands).isSome

/-- Tap the lands named by the plan (the mutation loop of _pay_for_spell);
indices already tapped by this very plan are skipped. -/
def applyTaps : List (Nat × Color) → List Nat → List LandPermanent →
    (List (Nat × Color) × List LandPermanent)
  | [], _, lands => ([], lands)
  | (idx, color) :: rest, tappedAcc, lands =>
    if idx ∈ tappedAcc then applyTaps rest tappedAcc lands
    else
      let lands' := lands.set idx { (lands.getD idx dummyLand) with tapped := true }
      let (acts, lands'') := applyTaps rest (tappedAcc ++ [idx]) lands'
      ((idx, color) :: acts, lands'')

/-- Python _pay_for_spell: plan, and on success commit by tapping the planned
lands; the returned action list records which land was tapped for which
color. -/
def pay_for_spell (card : Card) (lands : List LandPermanent) :
    Option (List (Nat × Color) × List LandPermanent) :=
  match plan_payment (cost_requirements card).1 (cost_requirements card).2 lands with
  | none => none
  | some plan => some (applyTaps plan [] lands)

/-- Python _should_hold_until_creature. -/
def should_hold_until_creature (card : Card) (battlefield : List Card) : Bool :=
  if card.is_land || card.is_creature then false
  else if decide ("counter" ∈ card.tags) || decide ("card_draw" ∈ card.tags) ||
      decide ("removal" ∈ card.tags) then false
  else !(battlefield.any (fun p => p.is_creature))

/-- Python _land_priority: untapped first, then multi-color flexibility. -/
def land_priority (c : Card) : Nat × Nat :=
  (if c.enters_tapped then 0 else 1,
   if c.produced_mana = [] then 1 else c.produced_mana.length)

/-- Strict lexicographic comparison on priority pairs. -/
def lexGT (a b : Nat × Nat) : Bool :=
  decide (b.1 < a.1) || (decide (a.1 = b.1) && decide (b.2 < a.2))

/-- Scan for the land the simulator plays: the land of strictly maximal
priority, earliest in hand among ties. This is exactly the first land of
Python's stable sort of the hand by _land_priority in reverse order. -/
def pickLandAux : Option Card → List Card → Option Card
  | best, [] => best
  | best, c :: cs =>
    if c.is_land &&
        (match best with
         | none => true
         | some b => lexGT (land_priority c) (land_priority b)) then
      pickLandAux (some c) cs
    else pickLandAux best cs

/-- Land chosen for the land drop, if any land is in hand. -/
def pickLand (hand : List Card) : Option Card := pickLandAux none hand

/-- Indices of the non-land cards of the hand. -/
def nonLandIndices (hand : List Card) : List Nat :=
  (List.range hand.length).filter (fun i => !(hand.getD i dummyCard).is_land)

/-- Sort key of the casting loop: (mana_cost, index), compared descending. -/
def castKey (hand : List Card) (i : Nat) : Nat × Nat :=
  ((hand.getD i dummyCard).mana_cost, i)

/-- Insertion into a list kept descending under the key (keys are distinct
because they contain the index). -/
def insertDescBy (key : Nat → Nat × Nat) (i : Nat) : List Nat → List Nat
  | [] => [i]
  | j :: js => if lexGT (key i) (key j) then i :: j :: js else j :: insertDescBy key i js

/-- Python sorted(..., key=lambda i: (hand[i].mana_cost, i), reverse=True):
the non-land indices in descending (mana_cost, index) order. -/
def castPlan (hand : List Card) : List Nat :=
  (nonLandIndices hand).foldr (insertDescBy (castKey hand)) []

/-- State threaded through the casting loop of one simulated turn: the
fields of the simulation the loop mutates, plus the per-turn cast counter
that the color-screw check reads. -/
structure CastState where
  battlefield : List Card
  lands : List LandPermanent
  casted : List Nat := []
  spells_cast : Nat := 0
  spells_cast_this_turn : Nat := 0
  mana_spent : Nat := 0
  spell_impact : Int := 0
  interaction_spells : Nat := 0
  counterspells : Nat := 0
  card_draw_spells : Nat := 0
  finishers : Nat := 0
deriving Repr

/-- One iteration of the casting loop: apply the holding rule, then attempt
plan-and-commit payment; on success update every counter the source updates
(the hand itself is only reduced after the loop). -/
def castStep (hand : List Card) (cs : CastState) (idx : Nat) : CastState :=
  let card := hand.getD idx dummyCard
  if should_hold_until_creature card cs.battlefield then cs
  else
    match pay_for_spell card cs.lands with
    | none => cs
    | some (_acts, lands') =>
      { cs with
        lands := lands'
        spells_cast := cs.spells_cast + 1
        spells_cast_this_turn := cs.spells_cast_this_turn + 1
        mana_spent := cs.mana_spent + card.mana_cost
        casted := cs.casted ++ [idx]
        battlefield := cs.battlefield ++ [card]
        spell_impact := cs.spell_impact +
          (if card.impact_score ≠ 0 ∧ card.is_creature = false then card.impact_score else 0)
        interaction_spells := cs.interaction_spells + (if "removal" ∈ card.tags then 1 else 0)
        counterspells := cs.counterspells + (if "counter" ∈ card.tags then 1 else 0)
        card_draw_spells := cs.card_draw_spells + (if "card_draw" ∈ card.tags then 1 else 0)
        finishers := cs.finishers + (if "finisher" ∈ card.tags then 1 else 0) }

/-- Drop the cards sitting at the given positions (the source pops the
casted indices in descending order, which removes exactly those positions). -/
def removeAtIndicesFrom : Nat → List Nat → List Card → List Card
  | _, _, [] => []
  | i, idxs, c :: cs =>
    if i ∈ idxs then removeAtIndicesFrom (i + 1) idxs cs
    else c :: removeAtIndicesFrom (i + 1) idxs cs

/-- Hand after the casted positions are removed. -/
def removeAtIndices (idxs : List Nat) (hand : List Card) : List Card :=
  removeAtIndicesFrom 0 idxs hand

/-- Per-turn board impact: power + toughness + creature impact of each
non-land permanent. -/
def boardImpact (battlefield : List Card) : Int :=
  (battlefield.filter (fun c => !c.is_land)).foldl
    (fun acc c =>
      acc + c.power.getD 0 + c.toughness.getD 0 + (if c.is_creature then c.impact_score else 0))
    0

/-- Global per-game counters of DrawSimulator._simulate. -/
structure SimState where
  library : List Card
  hand : List Card
  battlefield : List Card
  lands_in_play : List LandPermanent
  spells_cast : Nat := 0
  mana_spent : Nat := 0
  total_board_impact : Int := 0
  spell_impact : Int := 0
  interaction_spells : Nat := 0
  counterspells : Nat := 0
  card_draw_spells : Nat := 0
  finishers : Nat := 0
  color_screw_turns : Nat := 0
  land_drops_missed : Nat := 0
deriving Repr

/-- Non-land cards of the hand the planner could currently pay for
(the castable_spells list of the color-screw check). -/
def castableSpells (hand : List Card) (lands : List LandPermanent) : List Card :=
  hand.filter (fun c => !c.is_land && can_pay_for_spell c lands)

/-- End of a simulated turn: remove the casted cards from hand, accumulate
board impact, run the color-screw check and assemble the new state; the
second component is the number of spells cast this turn. -/
def finishTurn (s : SimState) (library' : List Card) (hand' : List Card)
    (landMissed : Bool) (cs : CastState) : SimState × Nat :=
  let hand'' := removeAtIndices cs.casted hand'
  let castable := castableSpells hand'' cs.lands
  let screw : Bool :=
    if !castable.isEmpty && cs.spells_cast_this_turn == 0 then true
    else if castable.isEmpty && cs.lands.any (fun l => !l.tapped) then true
    else false
  ({ library := library'
     hand := hand''
     battlefield := cs.battlefield
     lands_in_play := cs.lands
     spells_cast := cs.spells_cast
     mana_spent := cs.mana_spent
     total_board_impact := s.total_board_impact + boardImpact cs.battlefield
     spell_impact := cs.spell_impact
     interaction_spells := cs.interaction_spells
     counterspells := cs.counterspells
     card_draw_spells := cs.card_draw_spells
     finishers := cs.finishers
     color_screw_turns := s.color_screw_turns + (if screw then 1 else 0)
     land_drops_missed := s.land_drops_missed + (if landMissed then 1 else 0) },
   cs.spells_cast_this_turn)

/-- One simulated turn of DrawSimulator._simulate: untap, draw (a pop from
the end of the library if non-empty), land drop, casting loop, bookkeeping. -/
def playTurn (s : SimState) : SimState × Nat :=
  let lands1 := s.lands_in_play.map (fun l => { l with tapped := false })
  let drawn :=
    match s.library.getLast? with
    | some d => (s.library.dropLast, s.hand ++ [d])
    | none => (s.library, s.hand)
  let library' := drawn.1
  let hand1 := drawn.2
  let dropped :=
    match pickLand hand1 with
    | some c =>
      (hand1.erase c, lands1 ++ [({ card := c, tapped := c.enters_tapped } : LandPermanent)], false)
    | none => (hand1, lands1, true)
  let hand2 := dropped.1
  let lands2 := dropped.2.1
  let landMissed := dropped.2.2
  let cs0 : CastState :=
    { battlefield := s.battlefield
      lands := lands2
      spells_cast := s.spells_cast
      mana_spent := s.mana_spent
      spell_impact := s.spell_impact
      interaction_spells := s.interaction_spells
      counterspells := s.counterspells
      card_draw_spells := s.card_draw_spells
      finishers := s.finishers }
  let cs := (castPlan hand2).foldl (castStep hand2) cs0
  finishTurn s library' hand2 landMissed cs

/-- Iterate the configured number of turns. -/
def runTurns : Nat → SimState → SimState
  | 0, s => s
  | n + 1, s => runTurns n (playTurn s).1

/-- Pop from the end of a Python list; none models the IndexError raised on
an empty list. -/
def popLast (l : List Card) : Option (Card × List Card) :=
  match l.getLast? with
  | some c => some (c, l.dropLast)
  | none => none

/-- Draw the opening hand: n successive pops ([library.pop() for _ in
range(7)]); none models the IndexError a short library raises. -/
def drawHand : Nat → List Card → Option (List Card × List Card)
  | 0, lib => some ([], lib)
  | n + 1, lib =>
    match popLast lib with
    | none => none
    | some (c, lib') =>
      match drawHand n lib' with
      | none => none
      | some (hand, lib'') => some (c :: hand, lib'')

/-- Per-game statistics (GameResult, without the derived float score, which
no claim concerns). -/
structure GameResult where
  spells_cast : Nat
  mana_spent : Nat
  total_board_impact : Int
  spell_impact : Int
  interaction_spells : Nat
  counterspells : Nat
  card_draw_spells : Nat
  finishers : Nat
  color_screw_turns : Nat
  land_drops_missed : Nat
deriving DecidableEq, Repr

/-- DrawSimulator._simulate on an already-shuffled library: draw the opening
hand of 7 (none models the IndexError when the deck holds fewer than 7
cards), then play the configured turns. -/
def simulateGame (turns : Nat) (shuffledLibrary : List Card) : Option GameResult :=
  match drawHand 7 shuffledLibrary with
  | none => none
  | some (hand, library) =>
    let s := runTurns turns
      { library := library, hand := hand, battlefield := [], lands_in_play := [] }
    some
      { spells_cast := s.spells_cast
        mana_spent := s.mana_spent
        total_board_impact := s.total_board_impact
        spell_impact := s.spell_impact
        interaction_spells := s.interaction_spells
        counterspells := s.counterspells
        card_draw_spells := s.card_draw_spells
        finishers := s.finishers
        color_screw_turns := s.color_screw_turns
        land_drops_missed := s.land_drops_missed }

/-- Deck compositions: mapping from card to count, as the ordered
association list a Python dict is. -/
abbrev DeckList := List (Card × Nat)

/-- Python flatten_deck: expand the counter into the individual cards. -/
def flatten_deck (deck : DeckList) : List Card :=
  deck.foldl (fun acc p => acc ++ List.replicate p.2 p.1) []

/-- Python deck_size: total number of cards of the deck. -/
def deck_size (deck : DeckList) : Nat := (deck.map (fun p => p.2)).sum

/-- DrawSimulator.simulate of a deck, with the Mersenne shuffle abstracted
as an explicit permutation-producing parameter. -/
def simulate (turns : Nat) (deck : DeckList) (shuffle : List Card → List Card) :
    Option GameResult :=
  simulateGame turns (shuffle (flatten_deck deck))

/-- Result record of count_possible_decks. -/
structure DeckCount where
  total : Nat
  estimated : Bool := false
  lower_bound : Option Nat := none
  upper_bound : Option Nat := none
deriving DecidableEq, Repr

/-- Search configuration (search.py SearchConfig); the simulation member is
used by the search only through its seed, which this embedding models by the
explicit shuffle parameters of brute_force_decks. -/
structure SearchConfig where
  deck_size : Nat := 60
  brute_force_limit : Option Nat := some 5000
  deck_rules : Option DeckRules := none
deriving Repr

/-- Cap a running count at the cutoff (the two-line clamp of the source). -/
def capAt (cutoff v : Nat) : Nat := if cutoff < v then cutoff else v

/-- Pointwise array update for the DP rows, which the source stores as
Python lists indexed by number of cards placed. -/
def fupd (f : Nat → Nat) (i v : Nat) : Nat → Nat :=
  fun j => if j = i then v else f j

/-- Inner loop of the unconstrained counter: for ascending take, add
ways[current] into next_ways[current+take], clamping at the cutoff, and
break as soon as the total exceeds the deck size. -/
def dpInner (cutoff ds current wcur : Nat) : List Nat → (Nat → Nat) → (Nat → Nat)
  | [], next => next
  | take :: rest, next =>
    if ds < current + take then next
    else
      dpInner cutoff ds current wcur rest
        (fupd next (current + take) (capAt cutoff (next (current + take) + wcur)))

/-- Middle loop of the unconstrained counter: every current card count with
a non-zero way count contributes through the inner loop. -/
def dpMiddle (cutoff ds : Nat) (takes : List Nat) (ways : Nat → Nat) :
    List Nat → (Nat → Nat) → (Nat → Nat)
  | [], next => next
  | current :: rest, next =>
    if ways current = 0 then dpMiddle cutoff ds takes ways rest next
    else dpMiddle cutoff ds takes ways rest (dpInner cutoff ds current (ways current) takes next)

/-- One choice of the bounded-knapsack DP: build next_ways from ways. -/
def dpStep (cutoff ds : Nat) (ways : Nat → Nat) (ch : CardChoice) : Nat → Nat :=
  dpMiddle cutoff ds (choiceTakes ch) ways (List.range (ds + 1)) (fun _ => 0)

/-- The full DP of the rules-free branch of count_possible_decks, starting
from ways = [1 at index 0]. -/
def dpWays (cutoff ds : Nat) (choices : List CardChoice) : Nat → Nat :=
  choices.foldl (dpStep cutoff ds) (fupd (fun _ => 0) 0 1)

/-- Take loop of the memoized helper of the constrained branch: running
total plus estimated flag; a total exceeding the cutoff aborts with
(cutoff, true), a take exceeding the remaining cards breaks. -/
def helperTakes (cutoff : Nat) (f : Nat → Nat → Nat → Nat × Bool)
    (remaining lands creatures : Nat) (isL isC : Bool) :
    List Nat → Nat → Bool → Nat × Bool
  | [], total, flag => (total, flag)
  | take :: rest, total, flag =>
    if remaining < take then (total, flag)
    else
      let r := f (remaining - take) (lands + (if isL then take else 0))
        (creatures + (if isC then take else 0))
      let total' := total + r.1
      let flag' := flag || r.2
      if cutoff < total' then (cutoff, true)
      else helperTakes cutoff f remaining lands creatures isL isC rest total' flag'

/-- Recursive helper of the constrained branch of count_possible_decks,
with the memo cache elided (caching a pure function does not change its
value, and the nonlocal estimated flag is carried as the Bool component:
it is set exactly when some running total exceeded the cutoff). -/
def helper (cutoff maxL maxC : Nat) (rules : DeckRules) :
    List CardChoice → Nat → Nat → Nat → Nat × Bool
  | [], remaining, lands, creatures =>
    if maxL < lands || maxC < creatures then (0, false)
    else if remaining = 0 && rules.validate lands creatures then (1, false)
    else (0, false)
  | ch :: rest, remaining, lands, creatures =>
    if maxL < lands || maxC < creatures then (0, false)
    else
      helperTakes cutoff (helper cutoff maxL maxC rules rest) remaining lands creatures
        ch.card.is_land ch.card.is_creature (choiceTakes ch) 0 false

/-- Python count_possible_decks. -/
def count_possible_decks (choices : List CardChoice) (ds : Nat)
    (rules : Option DeckRules) (estimate_cutoff : Nat) : DeckCount :=
  match rules with
  | none =>
    let total := dpWays estimate_cutoff ds choices ds
    let estimated := decide (estimate_cutoff ≤ total)
    { total := total
      estimated := estimated
      lower_bound := some (if estimated then estimate_cutoff else total)
      upper_bound := some (if estimated then total + estimate_cutoff else total) }
  | some r =>
    let maxL := pyOrNat r.max_lands ds
    let maxC := pyOrNat r.max_creatures ds
    let res := helper estimate_cutoff maxL maxC r choices ds 0 0
    { total := res.1
      estimated := res.2
      lower_bound := some (if res.2 then estimate_cutoff else res.1)
      upper_bound := some (if res.2 then res.1 + estimate_cutoff else res.1) }

/-- Leaf acceptance of the searches: rules is None or rules.validate. -/
def leafOK (rules : Option DeckRules) (lands creatures : Nat) : Bool :=
  match rules with
  | none => true
  | some r => r.validate lands creatures

/-- Reference count of legal compositions (spec section 8: compositions
whose per-card count lies in each range, whose counts sum to the deck size,
and which the optional DeckRules accept), written as a direct recursive
count over the choices. -/
def specCount (rules : Option DeckRules) :
    List CardChoice → Nat → Nat → Nat → Nat
  | [], remaining, lands, creatures =>
    if remaining = 0 && leafOK rules lands creatures then 1 else 0
  | ch :: rest, remaining, lands, creatures =>
    ((choiceTakes ch).map (fun t =>
      if t ≤ remaining then
        specCount rules rest (remaining - t)
          (lands + (if ch.card.is_land then t else 0))
          (creatures + (if ch.card.is_creature then t else 0))
      else 0)).sum

/-- Suffix sum of minimum counts (min_suffix of the source, computed on the
remaining choice list instead of by slot index). -/
def min_suffix (cs : List CardChoice) : Nat := (cs.map (fun ch => ch.min_count)).sum

/-- Suffix sum of maximum counts. -/
def max_suffix (cs : List CardChoice) : Nat := (cs.map (fun ch => ch.max_count)).sum

/-- Suffix sum of minimum counts of land choices. -/
def land_min_suffix (cs : List CardChoice) : Nat :=
  (cs.map (fun ch => if ch.card.is_land then ch.min_count else 0)).sum

/-- Suffix sum of maximum counts of land choices. -/
def land_max_suffix (cs : List CardChoice) : Nat :=
  (cs.map (fun ch => if ch.card.is_land then ch.max_count else 0)).sum

/-- Suffix sum of minimum counts of creature choices. -/
def creature_min_suffix (cs : List CardChoice) : Nat :=
  (cs.map (fun ch => if ch.card.is_creature then ch.min_count else 0)).sum

/-- Suffix sum of maximum counts of creature choices. -/
def creature_max_suffix (cs : List CardChoice) : Nat :=
  (cs.map (fun ch => if ch.card.is_creature then ch.max_count else 0)).sum

/-- Python rules_pruned: the branch cannot satisfy a configured bound even
in the best case over the remaining choices. -/
def rules_pruned (rules : Option DeckRules) (lands creatures : Nat)
    (cs : List CardChoice) : Bool :=
  match rules with
  | none => false
  | some r =>
    (match r.min_lands with
     | some m => decide (lands + land_max_suffix cs < m)
     | none => false) ||
    (match r.max_lands with
     | some m => decide (m < lands + land_min_suffix cs)
     | none => false) ||
    (match r.min_creatures with
     | some m => decide (creatures + creature_max_suffix cs < m)
     | none => false) ||
    (match r.max_creatures with
     | some m => decide (m < creatures + creature_min_suffix cs)
     | none => false)

/-- Assignment to a Python dict key: overwrite in place when the key is
present, append otherwise. -/
def deckSet (d : DeckList) (c : Card) (n : Nat) : DeckList :=
  if d.any (fun p => decide (p.1 = c)) then
    d.map (fun p => if p.1 = c then (c, n) else p)
  else d ++ [(c, n)]

/-- Deck built at a leaf: deck[shuffled_choices[idx].card] = count for the
chosen counts in slot order. -/
def buildDeck (chosen : List (CardChoice × Nat)) : DeckList :=
  chosen.foldl (fun d p => deckSet d p.1.card p.2) []

/-- Mutable search state of brute_force_decks: accumulated decks, the
counter of collected decks, and the position in the stream of shuffles the
seeded generator produces. -/
structure BFState where
  decks : List DeckList := []
  counter : Nat := 0
  rngIdx : Nat := 0
deriving Repr

/-- Python backtrack of brute_force_decks, recursing on the remaining
choices; σN models rng.shuffle of the candidate count list (one stream
element consumed per expanded node). -/
def backtrack (limit : Option Nat) (rules : Option DeckRules)
    (σN : Nat → List Nat → List Nat) :
    List CardChoice → Nat → List (CardChoice × Nat) → Nat → Nat → BFState → BFState
  | cs, remaining, chosen, lands, creatures, st =>
    if (match limit with | some lim => decide (lim ≤ st.counter) | none => false) then st
    else if decide (remaining < min_suffix cs) || decide (max_suffix cs < remaining) then st
    else if rules_pruned rules lands creatures cs then st
    else
      match cs with
      | [] =>
        if remaining = 0 && leafOK rules lands creatures then
          { st with decks := st.decks ++ [buildDeck chosen], counter := st.counter + 1 }
        else st
      | ch :: rest =>
        let max_allowed := min ch.max_count (remaining - min_suffix rest)
        let counts := σN st.rngIdx (List.range' ch.min_count (max_allowed + 1 - ch.min_count))
        let st1 := { st with rngIdx := st.rngIdx + 1 }
        counts.foldl
          (fun acc count =>
            if decide (max_suffix rest < remaining - count) then acc
            else
              backtrack limit rules σN rest (remaining - count) (chosen ++ [(ch, count)])
                (lands + (if ch.card.is_land then count else 0))
                (creatures + (if ch.card.is_creature then count else 0)) acc)
          st1

/-- Python brute_force_decks: shuffle the choices once (σC), then run the
pruned backtracking search; progress reporting is I/O and not modelled. -/
def brute_force_decks (choices : List CardChoice) (config : SearchConfig)
    (σC : List CardChoice → List CardChoice)
    (σN : Nat → List Nat → List Nat) : List DeckList :=
  (backtrack config.brute_force_limit config.deck_rules σN (σC choices)
    config.deck_size [] 0 0 {}).decks

/-! Sample inputs used by witnesses and counterexamples. -/

/-- Sample green land. -/
def sampleForest : Card := { name := "Forest", type_line := "Land", produced_mana := ["G"] }

/-- Sample blue land. -/
def sampleIsland : Card := { name := "Island", type_line := "Land", produced_mana := ["U"] }

/-- Sample creature costing one green symbol. -/
def sampleElf : Card :=
  { name := "Elf", type_line := "Creature", mana_cost := 1, mana_cost_symbols := ["G"],
    power := some 1, toughness := some 1 }

/-- Sample non-creature, non-interaction spell costing one green symbol. -/
def samplePump : Card :=
  { name := "Pump", type_line := "Instant", mana_cost := 1, mana_cost_symbols := ["G"] }

/-- Sample spell with a purely generic cost of three. -/
def sampleArtifact : Card := { name := "Sphere", type_line := "Artifact", mana_cost := 3 }

/-- Sample cheap spell with no colored symbols recorded. -/
def sampleBolt : Card := { name := "Bolt", type_line := "Instant", mana_cost := 1 }

/-- Number of untapped lands among the permanents. -/
def countUntapped (lands : List LandPermanent) : Nat := (untappedIndices lands).length

/-- One colored requirement served by one pair (land index, color): the land
is untapped, produces the color, and the color meets the requirement. -/
def validPair (lands : List LandPermanent) (need : List Color) (p : Nat × Color) : Prop :=
  p.1 ∈ untappedIndices lands ∧
    p.2 ∈ produced_colors (lands.getD p.1 dummyLand) ∧ p.2 ∈ need

/-- Feasibility of a payment, in the words of the specification: there are
pairwise-distinct untapped lands, one per colored requirement whose
produced-color set intersects that requirement, plus one further distinct
untapped land per unit of generic cost. -/
def SpecPayFeasible (reqs : List (List Color)) (generic : Nat)
    (lands : List LandPermanent) : Prop :=
  ∃ ixs : List Nat, ixs.Nodup ∧ ixs.length = reqs.length + generic ∧
    (∀ i ∈ ixs, i < lands.length ∧ (lands.getD i dummyLand).tapped = false) ∧
    ∀ k, k < reqs.length →
      ∃ col, col ∈ produced_colors (lands.getD (ixs.getD k 0) dummyLand) ∧
        col ∈ reqs.getD k []

/-- Count recorded for a card in a deck composition (0 when absent). -/
def deckLookup (d : DeckList) (c : Card) : Nat :=
  match d.find? (fun p => decide (p.1 = c)) with
  | some p => p.2
  | none => 0

/-- Total land count of a composition (sum over its land entries). -/
def landCount (d : DeckList) : Nat :=
  (d.map (fun p => if p.1.is_land then p.2 else 0)).sum

/-- Total creature count of a composition. -/
def creatureCount (d : DeckList) : Nat :=
  (d.map (fun p => if p.1.is_creature then p.2 else 0)).sum

/-- A deck that the backtracking search can emit from the given node: built
from the chosen prefix extended by a tail assigning one in-range count to
each remaining choice, with the counts summing to the remaining target and
the aggregate rules satisfied. -/
def EmittedFrom (rules : Option DeckRules) (chosen : List (CardChoice × Nat))
    (cs : List CardChoice) (remaining lands creatures : Nat) (d : DeckList) : Prop :=
  ∃ tail : List (CardChoice × Nat),
    d = buildDeck (chosen ++ tail) ∧
    tail.map Prod.fst = cs ∧
    (∀ p ∈ tail, p.1.min_count ≤ p.2 ∧ p.2 ≤ p.1.max_count) ∧
    (tail.map Prod.snd).sum = remaining ∧
    leafOK rules
      (lands + (tail.map (fun p => if p.1.card.is_land then p.2 else 0)).sum)
      (creatures + (tail.map (fun p => if p.1.card.is_creature then p.2 else 0)).sum) = true

/-! Lemmas about the payment planner. -/

theorem firstSome_eq_some {α β : Type} {l : List α} {f : α → Option β} {b : β}
    (h : firstSome l f = some b) : ∃ a ∈ l, f a = some b := by
  induction l with
  | nil => simp [firstSome] at h
  | cons x xs ih =>
    rw [firstSome] at h
    cases hx : f x with
    | some v =>
      rw [hx] at h
      exact ⟨x, by simp, by simpa [hx] using h⟩
    | none =>
      rw [hx] at h
      obtain ⟨a, ha, hfa⟩ := ih h
      exact ⟨a, by simp [ha], hfa⟩

theorem firstSome_isSome_of_mem {α β : Type} {l : List α} {f : α → Option β} {a : α}
    (ha : a ∈ l) (hf : (f a).isSome = true) : (firstSome l f).isSome = true := by
  induction l with
  | nil => simp at ha
  | cons x xs ih =>
    rw [firstSome]
    cases hx : f x with
    | some v => simp
    | none =>
      rcases List.mem_cons.mp ha with rfl | hmem
      · rw [hx] at hf; simp at hf
      · exact ih hmem

theorem mem_untappedIndicesFrom {lands : List LandPermanent} :
    ∀ {i j : Nat}, j ∈ untappedIndicesFrom i lands ↔
      i ≤ j ∧ j - i < lands.length ∧ (lands.getD (j - i) dummyLand).tapped = false := by
  induction lands with
  | nil => intro i j; simp [untappedIndicesFrom]
  | cons l ls ih =>
    intro i j
    rw [untappedIndicesFrom]
    by_cases ht : l.tapped
    · rw [if_pos ht, ih]
      constructor
      · rintro ⟨h1, h2, h3⟩
        refine ⟨by omega, ?_, ?_⟩
        · simp only [List.length_cons]; omega
        · have : j - i = (j - (i + 1)) + 1 := by omega
          rw [this] at *
          simpa using h3
      · rintro ⟨h1, h2, h3⟩
        have hij : i ≠ j := by
          rintro rfl
          simp at h3
          rw [h3] at ht
          exact absurd ht (by simp)
        refine ⟨by omega, by simp at h2; omega, ?_⟩
        have : j - i = (j - (i + 1)) + 1 := by omega
        rw [this] at h3
        simpa using h3
    · rw [if_neg ht]
      simp only [List.mem_cons]
      rw [ih]
      constructor
      · rintro (rfl | ⟨h1, h2, h3⟩)
        · exact ⟨le_refl _, by simp, by simpa using ht⟩
        · refine ⟨by omega, by simp; omega, ?_⟩
          have : j - i = (j - (i + 1)) + 1 := by omega
          rw [this]
          simpa using h3
      · rintro ⟨h1, h2, h3⟩
        by_cases hij : j = i
        · exact Or.inl hij
        · refine Or.inr ⟨by omega, by simp at h2; omega, ?_⟩
          have : j - i = (j - (i + 1)) + 1 := by omega
          rw [this] at h3
          simpa using h3

theorem mem_untappedIndices {lands : List LandPermanent} {j : Nat} :
    j ∈ untappedIndices lands ↔
      j < lands.length ∧ (lands.getD j dummyLand).tapped = false := by
  rw [untappedIndices, mem_untappedIndicesFrom]
  simp

theorem untappedIndicesFrom_lower {lands : List LandPermanent} {i j : Nat}
    (h : j ∈ untappedIndicesFrom i lands) : i ≤ j :=
  (mem_untappedIndicesFrom.mp h).1

theorem untappedIndicesFrom_nodup (lands : List LandPermanent) :
    ∀ i, (untappedIndicesFrom i lands).Nodup := by
  induction lands with
  | nil => intro i; simp [untappedIndicesFrom]
  | cons l ls ih =>
    intro i
    rw [untappedIndicesFrom]
    by_cases ht : l.tapped
    · rw [if_pos ht]; exact ih (i + 1)
    · rw [if_neg ht]
      refine List.nodup_cons.mpr ⟨?_, ih (i + 1)⟩
      intro hmem
      have := untappedIndicesFrom_lower hmem
      omega

theorem untappedIndices_nodup (lands : List LandPermanent) :
    (untappedIndices lands).Nodup := untappedIndicesFrom_nodup lands 0

theorem coloredBacktrack_sound {lands : List LandPermanent} :
    ∀ {reqs : List (List Color)} {used res : List (Nat × Color)},
      coloredBacktrack lands reqs used = some res →
      (used.map Prod.fst).Nodup →
      ∃ ext, res = used ++ ext ∧ List.Forall₂ (validPair lands) reqs ext ∧
        ((used ++ ext).map Prod.fst).Nodup := by
  intro reqs
  induction reqs with
  | nil =>
    intro used res h hnd
    rw [coloredBacktrack] at h
    refine ⟨[], by simpa using h.symm, List.Forall₂.nil, by simpa using hnd⟩
  | cons need rest ih =>
    intro used res h hnd
    rw [coloredBacktrack] at h
    obtain ⟨idx, hidx, hf⟩ := firstSome_eq_some h
    by_cases hused : used.any (fun u => decide (u.1 = idx)) = true
    · rw [if_pos hused] at hf; exact absurd hf (by simp)
    · rw [if_neg hused] at hf
      obtain ⟨color, hcolor, hg⟩ := firstSome_eq_some hf
      by_cases hneed : color ∈ need
      · rw [if_pos hneed] at hg
        have hidx_notin : idx ∉ used.map Prod.fst := by
          intro hmem
          apply hused
          rw [List.any_eq_true]
          obtain ⟨p, hp, hfst⟩ := List.mem_map.mp hmem
          exact ⟨p, hp, by simp [hfst]⟩
        have hnd' : ((used ++ [(idx, color)]).map Prod.fst).Nodup := by
          rw [List.map_append]
          apply List.Nodup.append hnd (by simp)
          intro a ha hb
          simp at hb
          subst hb
          exact hidx_notin ha
        obtain ⟨ext, hres, hfa, hnd2⟩ := ih hg hnd'
        refine ⟨(idx, color) :: ext, ?_, ?_, ?_⟩
        · rw [hres, List.append_assoc]; rfl
        · exact List.Forall₂.cons ⟨hidx, hcolor, hneed⟩ hfa
        · rw [show used ++ (idx, color) :: ext = (used ++ [(idx, color)]) ++ ext by
            rw [List.append_assoc]; rfl]
          exact hnd2
      · rw [if_neg hneed] at hg; exact absurd hg (by simp)

theorem coloredBacktrack_complete {lands : List LandPermanent} :
    ∀ {reqs : List (List Color)} {ext used : List (Nat × Color)},
      List.Forall₂ (validPair lands) reqs ext →
      ((used ++ ext).map Prod.fst).Nodup →
      (coloredBacktrack lands reqs used).isSome = true := by
  intro reqs ext used hfa
  induction hfa generalizing used with
  | nil =>
    intro _
    rw [coloredBacktrack]
    simp
  | @cons need p rest ext' hpair _ ih =>
    intro hnd
    obtain ⟨idx, col⟩ := p
    obtain ⟨hidx, hcol, hneed⟩ := hpair
    rw [coloredBacktrack]
    apply firstSome_isSome_of_mem hidx
    have hused : used.any (fun u => decide (u.1 = idx)) = false := by
      rw [List.any_eq_false]
      intro p hp
      simp only [decide_eq_true_eq]
      intro heq
      have h1 : idx ∈ (used ++ (idx, col) :: ext').map Prod.fst := by
        simp
      have hnd2 := hnd
      rw [List.map_append, List.nodup_append] at hnd2
      exact hnd2.2.2 (List.mem_map.mpr ⟨p, hp, heq⟩) (by simp)
    rw [if_neg (by simp [hused])]
    apply firstSome_isSome_of_mem hcol
    rw [if_pos hneed]
    apply ih
    rw [show (used ++ [(idx, col)]) ++ ext' = used ++ (idx, col) :: ext' by
      rw [List.append_assoc]; rfl]
    exact hnd

theorem genericLoop_remaining {lands : List LandPermanent} {usedIdx : List Nat} :
    ∀ (l : List Nat) (g : Nat),
      (genericLoop lands usedIdx l g).2 =
        g - min g ((l.filter (fun i => decide (i ∉ usedIdx))).length) := by
  intro l
  induction l with
  | nil => intro g; simp [genericLoop]
  | cons idx rest ih =>
    intro g
    rw [genericLoop]
    by_cases hu : idx ∈ usedIdx
    · rw [if_pos hu, ih]
      simp [hu]
    · rw [if_neg hu]
      by_cases hg : g = 0
      · subst hg; simp
      · rw [if_neg hg]
        simp only []
        have h2 := ih (g - 1)
        rw [List.filter_cons, if_pos (by simp [hu])]
        cases hres : genericLoop lands usedIdx rest (g - 1) with
        | mk p g' =>
          simp only [hres] at h2 ⊢
          simp only [List.length_cons]
          omega

theorem genericLoop_map_fst {lands : List LandPermanent} {usedIdx : List Nat} :
    ∀ (l : List Nat) (g : Nat),
      (genericLoop lands usedIdx l g).1.map Prod.fst =
        (l.filter (fun i => decide (i ∉ usedIdx))).take g := by
  intro l
  induction l with
  | nil => intro g; simp [genericLoop]
  | cons idx rest ih =>
    intro g
    rw [genericLoop]
    by_cases hu : idx ∈ usedIdx
    · rw [if_pos hu, ih]
      simp [hu]
    · rw [if_neg hu]
      by_cases hg : g = 0
      · subst hg; simp
      · rw [if_neg hg]
        have h2 := ih (g - 1)
        rw [List.filter_cons, if_pos (by simp [hu])]
        cases hres : genericLoop lands usedIdx rest (g - 1) with
        | mk p g' =>
          simp only [hres] at h2 ⊢
          obtain ⟨g2, rfl⟩ : ∃ g2, g = g2 + 1 := ⟨g - 1, by omega⟩
          simp only [List.take_succ_cons, List.map_cons]
          rw [show g2 + 1 - 1 = g2 by omega] at h2
          rw [h2]

/-- Two nodup lists with the same members have the same length. -/
theorem nodup_length_eq_of_mem_iff {l1 l2 : List Nat} (h1 : l1.Nodup) (h2 : l2.Nodup)
    (h : ∀ x, x ∈ l1 ↔ x ∈ l2) : l1.length = l2.length := by
  rw [← List.toFinset_card_of_nodup h1, ← List.toFinset_card_of_nodup h2]
  congr 1
  ext x
  simp [h x]

/-- A nodup list included in another list is no longer than it. -/
theorem nodup_length_le_of_subset {l1 l2 : List Nat} (h1 : l1.Nodup)
    (h : ∀ x ∈ l1, x ∈ l2) : l1.length ≤ l2.length := by
  calc l1.length = l1.toFinset.card := (List.toFinset_card_of_nodup h1).symm
    _ ≤ l2.toFinset.card := by
        apply Finset.card_le_card
        intro x hx
        rw [List.mem_toFinset] at hx ⊢
        exact h x hx
    _ ≤ l2.length := l2.toFinset_card_le

theorem forall₂_validPair_untapped {lands : List LandPermanent} :
    ∀ {reqs : List (List Color)} {ext : List (Nat × Color)},
      List.Forall₂ (validPair lands) reqs ext →
      ∀ p ∈ ext, p.1 ∈ untappedIndices lands := by
  intro reqs ext hfa
  induction hfa with
  | nil => intro p hp; simp at hp
  | cons hpair _ ih =>
    intro p hp
    rcases List.mem_cons.mp hp with rfl | hmem
    · exact hpair.1
    · exact ih p hmem

theorem filter_partition_length (l : List Nat) (p : Nat → Bool) :
    (l.filter p).length + (l.filter (fun x => !(p x))).length = l.length := by
  induction l with
  | nil => simp
  | cons x xs ih =>
    by_cases hx : p x = true
    · simp [List.filter_cons, hx, ← ih]; omega
    · simp only [List.filter_cons]
      rw [if_neg (by simp [hx]), if_pos (by simp [hx])]
      simp [← ih]
      omega

theorem plan_payment_sound {reqs : List (List Color)} {generic : Nat}
    {lands : List LandPermanent} {plan : List (Nat × Color)}
    (h : plan_payment reqs generic lands = some plan) :
    (plan.map Prod.fst).Nodup ∧
      plan.length = reqs.length + generic ∧
      (∀ p ∈ plan, p.1 ∈ untappedIndices lands) ∧
      List.Forall₂ (validPair lands) reqs (plan.take reqs.length) ∧
      reqs.length + generic ≤ countUntapped lands := by
  rw [plan_payment] at h
  cases hcb : coloredBacktrack lands reqs [] with
  | none => rw [hcb] at h; exact absurd h (by simp)
  | some colored =>
    rw [hcb] at h
    obtain ⟨ext0, hext, hfa, hnd⟩ := coloredBacktrack_sound hcb (by simp)
    rw [List.nil_append] at hext
    rw [List.nil_append] at hnd
    rw [← hext] at hfa hnd
    clear hext
    simp only [] at h
    by_cases hrem : 0 < (genericLoop lands (colored.map Prod.fst) (untappedIndices lands) generic).2
    · rw [if_pos (by simpa using hrem)] at h; exact absurd h (by simp)
    · rw [if_neg (by simpa using hrem)] at h
      have hplan : plan = colored ++
          (genericLoop lands (colored.map Prod.fst) (untappedIndices lands) generic).1 := by
        simpa using h.symm
      set gp := (genericLoop lands (colored.map Prod.fst) (untappedIndices lands) generic).1 with hgp
      have hextlen : colored.length = reqs.length := (List.Forall₂.length_eq hfa).symm
      have hsubUsed : ∀ x ∈ colored.map Prod.fst, x ∈ untappedIndices lands := by
        intro x hx
        obtain ⟨p, hp, rfl⟩ := List.mem_map.mp hx
        exact forall₂_validPair_untapped hfa p hp
      -- count bookkeeping: the untapped indices split into those used by the
      -- colored plan and the rest
      have hsplit := filter_partition_length (untappedIndices lands)
        (fun i => decide (i ∉ colored.map Prod.fst))
      have hKeq : ((untappedIndices lands).filter
          (fun x => !(decide (x ∉ colored.map Prod.fst)))).length = colored.length := by
        have hmem : ∀ x, x ∈ (untappedIndices lands).filter
            (fun x => !(decide (x ∉ colored.map Prod.fst))) ↔ x ∈ colored.map Prod.fst := by
          intro x
          constructor
          · intro hx
            have h2 := (List.mem_filter.mp hx).2
            simp only [Bool.not_eq_true', decide_eq_false_iff_not, not_not] at h2
            exact h2
          · intro hx
            refine List.mem_filter.mpr ⟨hsubUsed x hx, ?_⟩
            simp only [Bool.not_eq_true', decide_eq_false_iff_not, not_not]
            exact hx
        have := nodup_length_eq_of_mem_iff
          (List.Nodup.filter _ (untappedIndices_nodup lands)) hnd hmem
        rw [this, List.length_map]
      have hremv := @genericLoop_remaining lands (colored.map Prod.fst)
        (untappedIndices lands) generic
      have hM : generic ≤ ((untappedIndices lands).filter
          (fun i => decide (i ∉ colored.map Prod.fst))).length := by
        omega
      have hgpfst := @genericLoop_map_fst lands (colored.map Prod.fst)
        (untappedIndices lands) generic
      rw [← hgp] at hgpfst
      have hgpnodup : (gp.map Prod.fst).Nodup := by
        rw [hgpfst]
        exact List.Sublist.nodup (List.take_sublist _ _)
          (List.Nodup.filter _ (untappedIndices_nodup lands))
      have hgpmem : ∀ x ∈ gp.map Prod.fst,
          x ∈ untappedIndices lands ∧ x ∉ colored.map Prod.fst := by
        intro x hx
        rw [hgpfst] at hx
        have := List.mem_filter.mp (List.mem_of_mem_take hx)
        exact ⟨this.1, by simpa using this.2⟩
      have hgplen : gp.length = generic := by
        have : (gp.map Prod.fst).length = generic := by
          rw [hgpfst, List.length_take]
          omega
        simpa using this
      subst hplan
      refine ⟨?_, ?_, ?_, ?_, ?_⟩
      · rw [List.map_append, List.nodup_append]
        exact ⟨hnd, hgpnodup, fun a ha hb => (hgpmem a hb).2 ha⟩
      · rw [List.length_append, hextlen, hgplen]
      · intro p hp
        rcases List.mem_append.mp hp with hp | hp
        · exact forall₂_validPair_untapped hfa p hp
        · exact (hgpmem p.1 (List.mem_map.mpr ⟨p, hp, rfl⟩)).1
      · rw [← hextlen, List.take_left]
        exact hfa
      · have : colored.length ≤ countUntapped lands := by
          have := nodup_length_le_of_subset hnd hsubUsed
          rw [List.length_map] at this
          exact this
        rw [countUntapped] at *
        omega

theorem filter_not_used_length {lands : List LandPermanent} {used : List Nat}
    (hnd : used.Nodup) (hsub : ∀ x ∈ used, x ∈ untappedIndices lands) :
    ((untappedIndices lands).filter (fun i => decide (i ∉ used))).length + used.length =
      countUntapped lands := by
  have hsplit := filter_partition_length (untappedIndices lands)
    (fun i => decide (i ∉ used))
  have hKeq : ((untappedIndices lands).filter
      (fun x => !(decide (x ∉ used)))).length = used.length := by
    apply nodup_length_eq_of_mem_iff
      (List.Nodup.filter _ (untappedIndices_nodup lands)) hnd
    intro x
    constructor
    · intro hx
      have h2 := (List.mem_filter.mp hx).2
      simp only [Bool.not_eq_true', decide_eq_false_iff_not, not_not] at h2
      exact h2
    · intro hx
      refine List.mem_filter.mpr ⟨hsub x hx, ?_⟩
      simp only [Bool.not_eq_true', decide_eq_false_iff_not, not_not]
      exact hx
  rw [countUntapped]
  omega

theorem plan_payment_complete {reqs : List (List Color)} {generic : Nat}
    {lands : List LandPermanent}
    (hex : ∃ ext, List.Forall₂ (validPair lands) reqs ext ∧ (ext.map Prod.fst).Nodup)
    (hcount : reqs.length + generic ≤ countUntapped lands) :
    (plan_payment reqs generic lands).isSome = true := by
  obtain ⟨ext, hfa, hnd⟩ := hex
  have hcb := @coloredBacktrack_complete lands reqs ext [] hfa (by simpa using hnd)
  cases hcb2 : coloredBacktrack lands reqs [] with
  | none => rw [hcb2] at hcb; simp at hcb
  | some colored =>
    obtain ⟨ext0, hext, hfa2, hnd2⟩ := coloredBacktrack_sound hcb2 (by simp)
    rw [List.nil_append] at hext
    rw [List.nil_append] at hnd2
    rw [← hext] at hfa2 hnd2
    clear hext
    have hsub : ∀ x ∈ colored.map Prod.fst, x ∈ untappedIndices lands := by
      intro x hx
      obtain ⟨p, hp, rfl⟩ := List.mem_map.mp hx
      exact forall₂_validPair_untapped hfa2 p hp
    have hlen : colored.length = reqs.length := (List.Forall₂.length_eq hfa2).symm
    have hflen := @filter_not_used_length lands (colored.map Prod.fst) hnd2 hsub
    rw [List.length_map, hlen] at hflen
    have hremv := @genericLoop_remaining lands (colored.map Prod.fst)
      (untappedIndices lands) generic
    rw [plan_payment, hcb2]
    simp only []
    rw [if_neg (by rw [hremv]; omega)]
    simp

theorem forall₂_validPair_getD {lands : List LandPermanent} :
    ∀ {reqs : List (List Color)} {ext : List (Nat × Color)},
      List.Forall₂ (validPair lands) reqs ext →
      ∀ k, k < reqs.length → validPair lands (reqs.getD k []) (ext.getD k (0, "")) := by
  intro reqs ext hfa
  induction hfa with
  | nil => intro k hk; simp at hk
  | cons hpair _ ih =>
    intro k hk
    cases k with
    | zero => simpa using hpair
    | succ k' => simpa using ih k' (by simpa using hk)

theorem getD_map_fst (l : List (Nat × Color)) :
    ∀ k, k < l.length → (l.map Prod.fst).getD k 0 = (l.getD k (0, "")).1 := by
  induction l with
  | nil => intro k hk; simp at hk
  | cons p rest ih =>
    intro k hk
    cases k with
    | zero => simp
    | succ k' => simpa using ih k' (by simpa using hk)

theorem getD_take (l : List (Nat × Color)) :
    ∀ q k, k < q → (l.take q).getD k (0, "") = l.getD k (0, "") := by
  induction l with
  | nil => intro q k _; simp
  | cons p rest ih =>
    intro q k hk
    cases q with
    | zero => omega
    | succ q' =>
      cases k with
      | zero => simp
      | succ k' => simpa using ih q' k' (by omega)

theorem build_forall₂ {lands : List LandPermanent} :
    ∀ (reqs : List (List Color)) (ixs : List Nat),
      reqs.length ≤ ixs.length →
      (∀ i ∈ ixs, i ∈ untappedIndices lands) →
      (∀ k, k < reqs.length →
        ∃ col, col ∈ produced_colors (lands.getD (ixs.getD k 0) dummyLand) ∧
          col ∈ reqs.getD k []) →
      ∃ ext, List.Forall₂ (validPair lands) reqs ext ∧
        ext.map Prod.fst = ixs.take reqs.length := by
  intro reqs
  induction reqs with
  | nil =>
    intro ixs _ _ _
    exact ⟨[], List.Forall₂.nil, by simp⟩
  | cons need rest ih =>
    intro ixs hlen hmem hcol
    cases ixs with
    | nil => simp at hlen
    | cons i ixs' =>
      obtain ⟨col, hcp, hcn⟩ := hcol 0 (by simp)
      simp only [List.getD_cons_zero] at hcp hcn
      obtain ⟨ext', hfa', hfst'⟩ := ih ixs' (by simpa using hlen)
        (fun j hj => hmem j (by simp [hj]))
        (fun k hk => by
          have := hcol (k + 1) (by simpa using hk)
          simpa using this)
      refine ⟨(i, col) :: ext', ?_, ?_⟩
      · refine List.Forall₂.cons ⟨hmem i (by simp), hcp, hcn⟩ hfa'
      · simp [hfst']

/-- C4: the Payment Planner produces a plan exactly when an assignment of
pairwise-distinct untapped lands covering every colored requirement plus the
generic cost exists; with no such assignment it reports infeasibility. -/
theorem plan_payment_iff_feasible (reqs : List (List Color)) (generic : Nat)
    (lands : List LandPermanent) :
    (plan_payment reqs generic lands).isSome = true ↔
      SpecPayFeasible reqs generic lands := by
  constructor
  · intro h
    rw [Option.isSome_iff_exists] at h
    obtain ⟨plan, hp⟩ := h
    obtain ⟨hnd, hlen, hmem, hfa, _⟩ := plan_payment_sound hp
    refine ⟨plan.map Prod.fst, hnd, by simpa using hlen, ?_, ?_⟩
    · intro i hi
      obtain ⟨p, hpmem, rfl⟩ := List.mem_map.mp hi
      exact mem_untappedIndices.mp (hmem p hpmem)
    · intro k hk
      have hklen : k < plan.length := by omega
      have hv := forall₂_validPair_getD hfa k hk
      refine ⟨((plan.take reqs.length).getD k (0, "")).2, ?_, hv.2.2⟩
      have heq : (plan.map Prod.fst).getD k 0 = ((plan.take reqs.length).getD k (0, "")).1 := by
        rw [getD_take plan reqs.length k hk, getD_map_fst plan k hklen]
      rw [heq]
      exact hv.2.1
  · rintro ⟨ixs, hnd, hlen, hmem, hcol⟩
    have hmem' : ∀ i ∈ ixs, i ∈ untappedIndices lands := by
      intro i hi
      exact mem_untappedIndices.mpr (hmem i hi)
    obtain ⟨ext, hfa, hfst⟩ := build_forall₂ reqs ixs (by omega) hmem' hcol
    apply plan_payment_complete
    · refine ⟨ext, hfa, ?_⟩
      rw [hfst]
      exact List.Sublist.nodup (List.take_sublist _ _) hnd
    · rw [← hlen]
      exact nodup_length_le_of_subset hnd hmem'

/-- C10: a non-land card with a positive converted mana cost, no itemized
colored symbols and no recorded generic cost is charged its whole converted
cost as generic cost: it can be paid exactly when at least mana_cost
untapped lands are available, regardless of their colors. -/
theorem generic_cost_fallback (card : Card) (lands : List LandPermanent)
    (h1 : 0 < card.mana_cost) (h2 : card.mana_cost_symbols = [])
    (h3 : card.generic_cost = 0) (h4 : card.is_land = false) :
    (can_pay_for_spell card lands = true ↔ card.mana_cost ≤ countUntapped lands) := by
  have hmc : card.mana_cost ≠ 0 := by omega
  have hcr : cost_requirements card = ([], card.mana_cost) := by
    simp [cost_requirements, h2, h3, hmc]
  rw [can_pay_for_spell, hcr]
  constructor
  · intro h
    rw [Option.isSome_iff_exists] at h
    obtain ⟨plan, hp⟩ := h
    have := (plan_payment_sound hp).2.2.2.2
    simpa using this
  · intro h
    apply plan_payment_complete ⟨[], List.Forall₂.nil, by simp⟩
    simpa using h

theorem generic_cost_fallback_witness :
    0 < sampleArtifact.mana_cost ∧ sampleArtifact.mana_cost_symbols = [] ∧
      sampleArtifact.generic_cost = 0 ∧ sampleArtifact.is_land = false ∧
      (can_pay_for_spell sampleArtifact
          [{ card := sampleIsland }, { card := sampleForest }, { card := sampleIsland }] = true ↔
        sampleArtifact.mana_cost ≤ countUntapped
          [{ card := sampleIsland }, { card := sampleForest }, { card := sampleIsland }]) :=
  ⟨by decide, by decide, by decide, by decide,
    generic_cost_fallback sampleArtifact _ (by decide) (by decide) (by decide) (by decide)⟩

theorem getD_set_self (l : List LandPermanent) :
    ∀ (i : Nat) (v : LandPermanent), i < l.length → (l.set i v).getD i dummyLand = v := by
  induction l with
  | nil => intro i v h; simp at h
  | cons x xs ih =>
    intro i v h
    cases i with
    | zero => simp
    | succ i' => simpa using ih i' v (by simpa using h)

theorem getD_set_ne (l : List LandPermanent) :
    ∀ (i j : Nat) (v : LandPermanent), i ≠ j →
      (l.set i v).getD j dummyLand = l.getD j dummyLand := by
  induction l with
  | nil => intro i j v _; simp
  | cons x xs ih =>
    intro i j v hij
    cases i with
    | zero =>
      cases j with
      | zero => omega
      | succ j' => simp
    | succ i' =>
      cases j with
      | zero => simp
      | succ j' => simpa using ih i' j' v (by omega)

theorem applyTaps_spec :
    ∀ (plan : List (Nat × Color)) (acc : List Nat) (lands : List LandPermanent),
      (plan.map Prod.fst).Nodup → (∀ p ∈ plan, p.1 ∉ acc) →
      (applyTaps plan acc lands).2.length = lands.length ∧
        ∀ j, (applyTaps plan acc lands).2.getD j dummyLand =
          if j ∈ plan.map Prod.fst ∧ j < lands.length then
            { lands.getD j dummyLand with tapped := true }
          else lands.getD j dummyLand := by
  intro plan
  induction plan with
  | nil =>
    intro acc lands _ _
    refine ⟨rfl, fun j => ?_⟩
    rw [if_neg (by simp)]
    rfl
  | cons p rest ih =>
    intro acc lands hnd hacc
    obtain ⟨idx, color⟩ := p
    rw [applyTaps, if_neg (by simpa using hacc (idx, color) (by simp))]
    simp only []
    have hndrest : (rest.map Prod.fst).Nodup := (List.nodup_cons.mp (by simpa using hnd)).2
    have hidxrest : idx ∉ rest.map Prod.fst := (List.nodup_cons.mp (by simpa using hnd)).1
    have haccrest : ∀ q ∈ rest, q.1 ∉ acc ++ [idx] := by
      intro q hq
      rw [List.mem_append]
      rintro (hmem | hmem)
      · exact hacc q (by simp [hq]) hmem
      · simp at hmem
        exact hidxrest (hmem ▸ List.mem_map.mpr ⟨q, hq, rfl⟩)
    set lands' := lands.set idx { (lands.getD idx dummyLand) with tapped := true } with hl'
    obtain ⟨ihlen, ihget⟩ := ih (acc ++ [idx]) lands' hndrest haccrest
    cases hres : applyTaps rest (acc ++ [idx]) lands' with
    | mk acts lands'' =>
      rw [hres] at ihlen ihget
      simp only []
      constructor
      · rw [ihlen, hl', List.length_set]
      · intro j
        have hlen' : lands'.length = lands.length := by rw [hl', List.length_set]
        by_cases hji : j = idx
        · subst hji
          by_cases hjlen : j < lands.length
          · rw [ihget j, if_neg (by exact fun hc => hidxrest hc.1)]
            rw [hl', getD_set_self lands j _ hjlen]
            rw [if_pos ⟨by simp, hjlen⟩]
          · rw [ihget j, if_neg (by exact fun hc => hidxrest hc.1)]
            rw [if_neg (by exact fun hc => hjlen hc.2)]
            rw [hl', List.set_eq_of_length_le (by omega)]
        · rw [ihget j]
          have hunch : lands'.getD j dummyLand = lands.getD j dummyLand := by
            rw [hl']
            exact getD_set_ne lands idx j _ (fun h => hji h.symm)
          by_cases hjmem : j ∈ rest.map Prod.fst
          · by_cases hjlen : j < lands.length
            · rw [if_pos ⟨hjmem, by omega⟩, hunch, if_pos ⟨by simp [hjmem], hjlen⟩]
            · rw [if_neg (by intro hc; omega), hunch,
                if_neg (by intro hc; exact hjlen hc.2)]
          · rw [if_neg (by intro hc; exact hjmem hc.1), hunch, if_neg ?hneg]
            intro hc
            have hm := hc.1
            simp only [List.map_cons, List.mem_cons] at hm
            rcases hm with h | h
            · exact hji h
            · exact hjmem h

/-- C5: when _pay_for_spell commits a plan, the lands whose tapped flag
changes are exactly the planned previously-untapped lands, one per colored
symbol of the cost plus one per unit of generic cost, and every other
land's state is unchanged. -/
theorem pay_for_spell_taps_exactly (card : Card) (lands : List LandPermanent)
    (acts : List (Nat × Color)) (lands' : List LandPermanent)
    (h : pay_for_spell card lands = some (acts, lands')) :
    ∃ ixs : List Nat, ixs.Nodup ∧
      ixs.length = (cost_requirements card).1.length + (cost_requirements card).2 ∧
      lands'.length = lands.length ∧
      (∀ i ∈ ixs, i < lands.length ∧ (lands.getD i dummyLand).tapped = false ∧
        lands'.getD i dummyLand = { lands.getD i dummyLand with tapped := true }) ∧
      (∀ j, j < lands.length → j ∉ ixs →
        lands'.getD j dummyLand = lands.getD j dummyLand) := by
  rw [pay_for_spell] at h
  cases hpp : plan_payment (cost_requirements card).1 (cost_requirements card).2 lands with
  | none => rw [hpp] at h; exact absurd h (by simp)
  | some plan =>
    rw [hpp] at h
    have hat : applyTaps plan [] lands = (acts, lands') := by simpa using h
    obtain ⟨hnd, hlen, hmem, _, _⟩ := plan_payment_sound hpp
    obtain ⟨hlen2, hget⟩ := applyTaps_spec plan [] lands hnd (by simp)
    rw [hat] at hlen2 hget
    refine ⟨plan.map Prod.fst, hnd, by simpa using hlen, hlen2, ?_, ?_⟩
    · intro i hi
      obtain ⟨p, hp, rfl⟩ := List.mem_map.mp hi
      have hu := mem_untappedIndices.mp (hmem p hp)
      refine ⟨hu.1, hu.2, ?_⟩
      rw [hget p.1, if_pos ⟨List.mem_map.mpr ⟨p, hp, rfl⟩, hu.1⟩]
    · intro j _ hj
      rw [hget j, if_neg (fun hc => hj hc.1)]

theorem pay_for_spell_taps_exactly_witness :
    pay_for_spell sampleElf [{ card := sampleIsland }, { card := sampleForest }] =
      some ([(1, "G")], [{ card := sampleIsland }, { card := sampleForest, tapped := true }]) ∧
      ∃ ixs : List Nat, ixs.Nodup ∧
        ixs.length = (cost_requirements sampleElf).1.length + (cost_requirements sampleElf).2 ∧
        ([({ card := sampleIsland } : LandPermanent),
            { card := sampleForest, tapped := true }]).length =
          ([({ card := sampleIsland } : LandPermanent), { card := sampleForest }]).length ∧
        (∀ i ∈ ixs,
          i < ([({ card := sampleIsland } : LandPermanent), { card := sampleForest }]).length ∧
          (([({ card := sampleIsland } : LandPermanent),
              { card := sampleForest }]).getD i dummyLand).tapped = false ∧
          ([({ card := sampleIsland } : LandPermanent),
              { card := sampleForest, tapped := true }]).getD i dummyLand =
            { ([({ card := sampleIsland } : LandPermanent),
                { card := sampleForest }]).getD i dummyLand with tapped := true }) ∧
        (∀ j, j < ([({ card := sampleIsland } : LandPermanent),
            { card := sampleForest }]).length → j ∉ ixs →
          ([({ card := sampleIsland } : LandPermanent),
              { card := sampleForest, tapped := true }]).getD j dummyLand =
            ([({ card := sampleIsland } : LandPermanent),
                { card := sampleForest }]).getD j dummyLand) :=
  ⟨by decide,
    pay_for_spell_taps_exactly sampleElf
      [{ card := sampleIsland }, { card := sampleForest }]
      [(1, "G")] [{ card := sampleIsland }, { card := sampleForest, tapped := true }]
      (by decide)⟩

/-! Lemmas about the game simulator. -/

theorem flatten_deck_foldl_length (deck : DeckList) :
    ∀ acc : List Card,
      (deck.foldl (fun acc p => acc ++ List.replicate p.2 p.1) acc).length =
        acc.length + deck_size deck := by
  induction deck with
  | nil => intro acc; simp [deck_size]
  | cons p rest ih =>
    intro acc
    rw [List.foldl_cons, ih]
    simp [deck_size]
    omega

theorem flatten_deck_length (deck : DeckList) :
    (flatten_deck deck).length = deck_size deck := by
  rw [flatten_deck, flatten_deck_foldl_length]
  simp

theorem drawHand_isSome :
    ∀ (n : Nat) (lib : List Card), n ≤ lib.length → (drawHand n lib).isSome = true := by
  intro n
  induction n with
  | zero => intro lib _; simp [drawHand]
  | succ n' ih =>
    intro lib hlen
    rw [drawHand]
    have hne : lib ≠ [] := by
      intro h
      subst h
      simp at hlen
    cases hlast : lib.getLast? with
    | none =>
      rw [List.getLast?_eq_none_iff] at hlast
      exact absurd hlast hne
    | some c =>
      rw [popLast, hlast]
      simp only []
      have hdl : lib.dropLast.length = lib.length - 1 := by
        rw [List.length_dropLast]
      have := ih lib.dropLast (by omega)
      cases hdh : drawHand n' lib.dropLast with
      | none => rw [hdh] at this; simp at this
      | some p =>
        cases p with
        | mk h2 l2 => simp

/-- C3 counterexample: DrawSimulator.simulate on the empty deck raises an
IndexError while drawing the opening hand (the none result), rather than
producing a degenerate GameResult. -/
theorem simulate_empty_deck_raises : simulate 6 [] (fun l => l) = none := by decide

/-- C3 (amended): for every deck of at least 7 cards (so the opening hand
can be drawn), simulation completes without raising. -/
theorem simulate_no_exception (turns : Nat) (deck : DeckList)
    (shuffle : List Card → List Card)
    (hs : (shuffle (flatten_deck deck)).Perm (flatten_deck deck))
    (h7 : 7 ≤ deck_size deck) :
    (simulate turns deck shuffle).isSome = true := by
  rw [simulate, simulateGame]
  have hlen : 7 ≤ (shuffle (flatten_deck deck)).length := by
    rw [hs.length_eq, flatten_deck_length]
    exact h7
  have := drawHand_isSome 7 (shuffle (flatten_deck deck)) hlen
  cases hdh : drawHand 7 (shuffle (flatten_deck deck)) with
  | none => rw [hdh] at this; simp at this
  | some p =>
    cases p with
    | mk hand lib => simp

theorem simulate_no_exception_witness :
    ((fun (l : List Card) => l) (flatten_deck [(sampleForest, 7)])).Perm
        (flatten_deck [(sampleForest, 7)]) ∧
      7 ≤ deck_size [(sampleForest, 7)] ∧
      (simulate 6 [(sampleForest, 7)] (fun l => l)).isSome = true :=
  ⟨List.Perm.refl _, by decide,
    simulate_no_exception 6 [(sampleForest, 7)] (fun l => l) (List.Perm.refl _) (by decide)⟩

theorem finishTurn_screw (s : SimState) (library' hand' : List Card)
    (lm : Bool) (cs : CastState) :
    (finishTurn s library' hand' lm cs).1.color_screw_turns =
      s.color_screw_turns +
        (if (castableSpells (finishTurn s library' hand' lm cs).1.hand
              (finishTurn s library' hand' lm cs).1.lands_in_play ≠ [] ∧
            (finishTurn s library' hand' lm cs).2 = 0) ∨
          (castableSpells (finishTurn s library' hand' lm cs).1.hand
              (finishTurn s library' hand' lm cs).1.lands_in_play = [] ∧
            (finishTurn s library' hand' lm cs).1.lands_in_play.any
              (fun l => !l.tapped) = true)
        then 1 else 0) := by
  simp only [finishTurn]
  set castable := castableSpells (removeAtIndices cs.casted hand') cs.lands with hcast
  have hiff :
      ((if !castable.isEmpty && cs.spells_cast_this_turn == 0 then true
        else if castable.isEmpty && cs.lands.any (fun l => !l.tapped) then true
        else false) = true) ↔
        ((castable ≠ [] ∧ cs.spells_cast_this_turn = 0) ∨
          (castable = [] ∧ cs.lands.any (fun l => !l.tapped) = true)) := by
    by_cases hA : castable = []
    · by_cases hC : cs.lands.any (fun l => !l.tapped) = true
      · simp [hA, hC]
      · simp [hA, hC]
    · by_cases hB : cs.spells_cast_this_turn = 0
      · simp [List.isEmpty_iff, hA, hB]
      · simp [List.isEmpty_iff, hA, hB]
  congr 1
  exact if_congr hiff rfl rfl

/-- C7: one simulated turn increments the color-screw counter exactly once
when either some castable non-land card remained in hand with zero spells
cast this turn, or nothing was castable while an untapped land remained;
otherwise the counter is unchanged. -/
theorem color_screw_increment (s : SimState) :
    (playTurn s).1.color_screw_turns =
      s.color_screw_turns +
        (if (castableSpells (playTurn s).1.hand (playTurn s).1.lands_in_play ≠ [] ∧
              (playTurn s).2 = 0) ∨
            (castableSpells (playTurn s).1.hand (playTurn s).1.lands_in_play = [] ∧
              (playTurn s).1.lands_in_play.any (fun l => !l.tapped) = true)
          then 1 else 0) := by
  simp only [playTurn]
  exact finishTurn_screw _ _ _ _ _

/-- C9: the holding rule: a non-land, non-creature card without the
counter, card_draw or removal tags is not cast by the casting loop while no
creature is on the battlefield, and the rule stops blocking it as soon as
some creature is on the battlefield. -/
theorem holding_rule (hand : List Card) (cs : CastState) (idx : Nat) (card : Card)
    (hcard : hand.getD idx dummyCard = card)
    (hl : card.is_land = false) (hc : card.is_creature = false)
    (ht1 : "counter" ∉ card.tags) (ht2 : "card_draw" ∉ card.tags)
    (ht3 : "removal" ∉ card.tags) :
    ((∀ b ∈ cs.battlefield, b.is_creature = false) → castStep hand cs idx = cs) ∧
      ((∃ b ∈ cs.battlefield, b.is_creature = true) →
        should_hold_until_creature card cs.battlefield = false) := by
  constructor
  · intro hbf
    have hhold : should_hold_until_creature card cs.battlefield = true := by
      rw [should_hold_until_creature]
      rw [if_neg (by simp [hl, hc])]
      rw [if_neg (by simp [ht1, ht2, ht3])]
      simp only [Bool.not_eq_true']
      rw [List.any_eq_false]
      intro b hb
      simp [hbf b hb]
    rw [castStep, hcard, if_pos hhold]
  · rintro ⟨b, hb, hcreature⟩
    rw [should_hold_until_creature]
    rw [if_neg (by simp [hl, hc])]
    rw [if_neg (by simp [ht1, ht2, ht3])]
    simp only [Bool.not_eq_false']
    rw [List.any_eq_true]
    exact ⟨b, hb, by simp [hcreature]⟩

theorem holding_rule_witness :
    ([samplePump].getD 0 dummyCard = samplePump ∧ samplePump.is_land = false ∧
        samplePump.is_creature = false ∧ "counter" ∉ samplePump.tags ∧
        "card_draw" ∉ samplePump.tags ∧ "removal" ∉ samplePump.tags) ∧
      ((∀ b ∈ ({ battlefield := [], lands := [⟨sampleForest, false⟩] } : CastState).battlefield,
          b.is_creature = false) →
        castStep [samplePump] { battlefield := [], lands := [⟨sampleForest, false⟩] } 0 =
          { battlefield := [], lands := [⟨sampleForest, false⟩] }) ∧
      ((∃ b ∈ ({ battlefield := [], lands := [⟨sampleForest, false⟩] } : CastState).battlefield,
          b.is_creature = true) →
        should_hold_until_creature samplePump
          ({ battlefield := [], lands := [⟨sampleForest, false⟩] } : CastState).battlefield = false) :=
  ⟨⟨by decide, by decide, by decide, by decide, by decide, by decide⟩,
    holding_rule [samplePump] { battlefield := [], lands := [⟨sampleForest, false⟩] } 0
      samplePump (by decide) (by decide) (by decide) (by decide) (by decide) (by decide)⟩

/-! Lemmas about the composition counter and the search. -/

theorem mem_choiceTakes {ch : CardChoice} {t : Nat} :
    t ∈ choiceTakes ch ↔ ch.min_count ≤ t ∧ t ≤ ch.max_count := by
  rw [choiceTakes, List.mem_range'_1]
  omega

theorem spec_none_indep :
    ∀ (cs : List CardChoice) (r l c l' c' : Nat),
      specCount none cs r l c = specCount none cs r l' c' := by
  intro cs
  induction cs with
  | nil => intro r l c l' c'; simp [specCount, leafOK]
  | cons ch rest ih =>
    intro r l c l' c'
    rw [specCount, specCount]
    congr 1
    apply List.map_congr_left
    intro t _
    by_cases ht : t ≤ r
    · rw [if_pos ht, if_pos ht]
      apply ih
    · rw [if_neg ht, if_neg ht]

theorem spec_zero_lt_min {rules : Option DeckRules} :
    ∀ {cs : List CardChoice} {r l c : Nat},
      r < min_suffix cs → specCount rules cs r l c = 0 := by
  intro cs
  induction cs with
  | nil => intro r l c h; simp [min_suffix] at h
  | cons ch rest ih =>
    intro r l c h
    rw [specCount]
    apply List.sum_eq_zero
    intro x hx
    obtain ⟨t, ht, rfl⟩ := List.mem_map.mp hx
    obtain ⟨htmin, _⟩ := mem_choiceTakes.mp ht
    by_cases hle : t ≤ r
    · rw [if_pos hle]
      apply ih
      have : min_suffix (ch :: rest) = ch.min_count + min_suffix rest := by
        simp [min_suffix]
      omega
    · rw [if_neg hle]

theorem spec_zero_gt_max {rules : Option DeckRules} :
    ∀ {cs : List CardChoice} {r l c : Nat},
      max_suffix cs < r → specCount rules cs r l c = 0 := by
  intro cs
  induction cs with
  | nil =>
    intro r l c h
    simp [max_suffix] at h
    rw [specCount, if_neg (by simp; omega)]
  | cons ch rest ih =>
    intro r l c h
    rw [specCount]
    apply List.sum_eq_zero
    intro x hx
    obtain ⟨t, ht, rfl⟩ := List.mem_map.mp hx
    obtain ⟨_, htmax⟩ := mem_choiceTakes.mp ht
    by_cases hle : t ≤ r
    · rw [if_pos hle]
      apply ih
      have : max_suffix (ch :: rest) = ch.max_count + max_suffix rest := by
        simp [max_suffix]
      omega
    · rw [if_neg hle]

theorem spec_zero_min_lands {rr : DeckRules} {m : Nat} (hm : rr.min_lands = some m) :
    ∀ {cs : List CardChoice} {r l c : Nat},
      l + land_max_suffix cs < m → specCount (some rr) cs r l c = 0 := by
  intro cs
  induction cs with
  | nil =>
    intro r l c h
    simp [land_max_suffix] at h
    rw [specCount, if_neg ?h0]
    simp only [Bool.and_eq_true, not_and]
    intro _
    simp [leafOK, DeckRules.validate, belowMin, hm, h]
  | cons ch rest ih =>
    intro r l c h
    rw [specCount]
    apply List.sum_eq_zero
    intro x hx
    obtain ⟨t, ht, rfl⟩ := List.mem_map.mp hx
    obtain ⟨_, htmax⟩ := mem_choiceTakes.mp ht
    by_cases hle : t ≤ r
    · rw [if_pos hle]
      apply ih
      have hsfx : land_max_suffix (ch :: rest) =
          (if ch.card.is_land then ch.max_count else 0) + land_max_suffix rest := by
        simp [land_max_suffix]
      by_cases hland : ch.card.is_land <;> simp [hland] at hsfx ⊢ <;> omega
    · rw [if_neg hle]

theorem spec_zero_max_lands {rr : DeckRules} {m : Nat} (hm : rr.max_lands = some m) :
    ∀ {cs : List CardChoice} {r l c : Nat},
      m < l + land_min_suffix cs → specCount (some rr) cs r l c = 0 := by
  intro cs
  induction cs with
  | nil =>
    intro r l c h
    simp [land_min_suffix] at h
    rw [specCount, if_neg ?h0]
    simp only [Bool.and_eq_true, not_and]
    intro _
    simp [leafOK, DeckRules.validate, aboveMax, hm, h]
  | cons ch rest ih =>
    intro r l c h
    rw [specCount]
    apply List.sum_eq_zero
    intro x hx
    obtain ⟨t, ht, rfl⟩ := List.mem_map.mp hx
    obtain ⟨htmin, _⟩ := mem_choiceTakes.mp ht
    by_cases hle : t ≤ r
    · rw [if_pos hle]
      apply ih
      have hsfx : land_min_suffix (ch :: rest) =
          (if ch.card.is_land then ch.min_count else 0) + land_min_suffix rest := by
        simp [land_min_suffix]
      by_cases hland : ch.card.is_land <;> simp [hland] at hsfx ⊢ <;> omega
    · rw [if_neg hle]

theorem spec_zero_min_creatures {rr : DeckRules} {m : Nat} (hm : rr.min_creatures = some m) :
    ∀ {cs : List CardChoice} {r l c : Nat},
      c + creature_max_suffix cs < m → specCount (some rr) cs r l c = 0 := by
  intro cs
  induction cs with
  | nil =>
    intro r l c h
    simp [creature_max_suffix] at h
    rw [specCount, if_neg ?h0]
    simp only [Bool.and_eq_true, not_and]
    intro _
    simp [leafOK, DeckRules.validate, belowMin, hm, h]
  | cons ch rest ih =>
    intro r l c h
    rw [specCount]
    apply List.sum_eq_zero
    intro x hx
    obtain ⟨t, ht, rfl⟩ := List.mem_map.mp hx
    obtain ⟨_, htmax⟩ := mem_choiceTakes.mp ht
    by_cases hle : t ≤ r
    · rw [if_pos hle]
      apply ih
      have hsfx : creature_max_suffix (ch :: rest) =
          (if ch.card.is_creature then ch.max_count else 0) + creature_max_suffix rest := by
        simp [creature_max_suffix]
      by_cases hcrea : ch.card.is_creature <;> simp [hcrea] at hsfx ⊢ <;> omega
    · rw [if_neg hle]

theorem spec_zero_max_creatures {rr : DeckRules} {m : Nat} (hm : rr.max_creatures = some m) :
    ∀ {cs : List CardChoice} {r l c : Nat},
      m < c + creature_min_suffix cs → specCount (some rr) cs r l c = 0 := by
  intro cs
  induction cs with
  | nil =>
    intro r l c h
    simp [creature_min_suffix] at h
    rw [specCount, if_neg ?h0]
    simp only [Bool.and_eq_true, not_and]
    intro _
    simp [leafOK, DeckRules.validate, aboveMax, hm, h]
  | cons ch rest ih =>
    intro r l c h
    rw [specCount]
    apply List.sum_eq_zero
    intro x hx
    obtain ⟨t, ht, rfl⟩ := List.mem_map.mp hx
    obtain ⟨htmin, _⟩ := mem_choiceTakes.mp ht
    by_cases hle : t ≤ r
    · rw [if_pos hle]
      apply ih
      have hsfx : creature_min_suffix (ch :: rest) =
          (if ch.card.is_creature then ch.min_count else 0) + creature_min_suffix rest := by
        simp [creature_min_suffix]
      by_cases hcrea : ch.card.is_creature <;> simp [hcrea] at hsfx ⊢ <;> omega
    · rw [if_neg hle]

theorem rules_pruned_spec_zero {rules : Option DeckRules} {cs : List CardChoice}
    {r l c : Nat} (h : rules_pruned rules l c cs = true) :
    specCount rules cs r l c = 0 := by
  match rules with
  | none => simp [rules_pruned] at h
  | some rr =>
    rw [rules_pruned] at h
    rw [Bool.or_eq_true, Bool.or_eq_true, Bool.or_eq_true] at h
    rcases h with ((h | h) | h) | h
    · cases hm : rr.min_lands with
      | none => rw [hm] at h; simp at h
      | some m =>
        rw [hm] at h
        simp only [decide_eq_true_eq] at h
        exact spec_zero_min_lands hm h
    · cases hm : rr.max_lands with
      | none => rw [hm] at h; simp at h
      | some m =>
        rw [hm] at h
        simp only [decide_eq_true_eq] at h
        exact spec_zero_max_lands hm h
    · cases hm : rr.min_creatures with
      | none => rw [hm] at h; simp at h
      | some m =>
        rw [hm] at h
        simp only [decide_eq_true_eq] at h
        exact spec_zero_min_creatures hm h
    · cases hm : rr.max_creatures with
      | none => rw [hm] at h; simp at h
      | some m =>
        rw [hm] at h
        simp only [decide_eq_true_eq] at h
        exact spec_zero_max_creatures hm h

theorem leafOK_of_not_pruned {rules : Option DeckRules} {l c : Nat}
    (h : rules_pruned rules l c [] = false) : leafOK rules l c = true := by
  match rules with
  | none => rfl
  | some rr =>
    rw [rules_pruned] at h
    rw [Bool.or_eq_false_iff, Bool.or_eq_false_iff, Bool.or_eq_false_iff] at h
    obtain ⟨⟨⟨h1, h2⟩, h3⟩, h4⟩ := h
    rw [leafOK, DeckRules.validate]
    have hb1 : belowMin l rr.min_lands = false := by
      cases hm : rr.min_lands with
      | none => rfl
      | some m =>
        rw [hm] at h1
        rw [belowMin]
        simp only [land_max_suffix, List.map_nil, List.sum_nil, Nat.add_zero] at h1
        simpa using h1
    have hb2 : aboveMax l rr.max_lands = false := by
      cases hm : rr.max_lands with
      | none => rfl
      | some m =>
        rw [hm] at h2
        rw [aboveMax]
        simp only [land_min_suffix, List.map_nil, List.sum_nil, Nat.add_zero] at h2
        simpa using h2
    have hb3 : belowMin c rr.min_creatures = false := by
      cases hm : rr.min_creatures with
      | none => rfl
      | some m =>
        rw [hm] at h3
        rw [belowMin]
        simp only [creature_max_suffix, List.map_nil, List.sum_nil, Nat.add_zero] at h3
        simpa using h3
    have hb4 : aboveMax c rr.max_creatures = false := by
      cases hm : rr.max_creatures with
      | none => rfl
      | some m =>
        rw [hm] at h4
        rw [aboveMax]
        simp only [creature_min_suffix, List.map_nil, List.sum_nil, Nat.add_zero] at h4
        simpa using h4
    rw [hb1, hb2, hb3, hb4]
    rfl

theorem sum_range'_truncate (f : Nat → Nat) :
    ∀ (n₁ n₂ a : Nat), n₁ ≤ n₂ → (∀ t, a + n₁ ≤ t → t < a + n₂ → f t = 0) →
      ((List.range' a n₂).map f).sum = ((List.range' a n₁).map f).sum := by
  intro n₁ n₂ a hle hz
  have hsplit : List.range' a n₂ = List.range' a n₁ ++ List.range' (a + n₁) (n₂ - n₁) := by
    rw [List.range'_append_1]
    congr 1
    omega
  rw [hsplit, List.map_append, List.sum_append]
  have : ((List.range' (a + n₁) (n₂ - n₁)).map f).sum = 0 := by
    apply List.sum_eq_zero
    intro x hx
    obtain ⟨t, ht, rfl⟩ := List.mem_map.mp hx
    rw [List.mem_range'_1] at ht
    exact hz t (by omega) (by omega)
  omega

theorem backtrack_decks_length {rules : Option DeckRules} {σN : Nat → List Nat → List Nat}
    (hσN : ∀ k l, (σN k l).Perm l) :
    ∀ (cs : List CardChoice) (remaining : Nat) (chosen : List (CardChoice × Nat))
      (lands creatures : Nat) (st : BFState),
      (backtrack none rules σN cs remaining chosen lands creatures st).decks.length =
        st.decks.length + specCount rules cs remaining lands creatures := by
  intro cs
  induction cs with
  | nil =>
    intro remaining chosen lands creatures st
    rw [backtrack]
    rw [if_neg (by simp)]
    by_cases hpr : (decide (remaining < min_suffix []) ||
        decide (max_suffix [] < remaining)) = true
    · rw [if_pos hpr]
      have : remaining ≠ 0 := by
        simp [min_suffix, max_suffix] at hpr
        omega
      rw [specCount, if_neg (by simp [this])]
      omega
    · rw [if_neg hpr]
      have hrem : remaining = 0 := by
        simp [min_suffix, max_suffix] at hpr
        omega
      by_cases hru : rules_pruned rules lands creatures [] = true
      · rw [if_pos hru, rules_pruned_spec_zero hru]
        omega
      · rw [if_neg hru]
        have hok := leafOK_of_not_pruned (by simpa using hru)
        subst hrem
        rw [if_pos (by simp [hok]), specCount, if_pos (by simp [hok])]
        simp
  | cons ch rest ih =>
    intro remaining chosen lands creatures st
    rw [backtrack]
    rw [if_neg (by simp)]
    by_cases hpr : (decide (remaining < min_suffix (ch :: rest)) ||
        decide (max_suffix (ch :: rest) < remaining)) = true
    · rw [if_pos hpr]
      rw [Bool.or_eq_true, decide_eq_true_eq, decide_eq_true_eq] at hpr
      rcases hpr with h | h
      · rw [spec_zero_lt_min h]
        omega
      · rw [spec_zero_gt_max h]
        omega
    · rw [if_neg hpr]
      by_cases hru : rules_pruned rules lands creatures (ch :: rest) = true
      · rw [if_pos hru, rules_pruned_spec_zero hru]
        omega
      · rw [if_neg hru]
        rw [Bool.or_eq_true, decide_eq_true_eq, decide_eq_true_eq] at hpr
        push_neg at hpr
        have hminok : min_suffix (ch :: rest) ≤ remaining := by omega
        have hmaxok : remaining ≤ max_suffix (ch :: rest) := by omega
        have hmincons : min_suffix (ch :: rest) = ch.min_count + min_suffix rest := by
          simp [min_suffix]
        set term : Nat → Nat := fun count =>
          if max_suffix rest < remaining - count then 0
          else specCount rules rest (remaining - count)
            (lands + (if ch.card.is_land then count else 0))
            (creatures + (if ch.card.is_creature then count else 0)) with hterm
        have hinner : ∀ (cts : List Nat) (st' : BFState),
            ((cts.foldl (fun acc count =>
                if decide (max_suffix rest < remaining - count) then acc
                else backtrack none rules σN rest (remaining - count)
                  (chosen ++ [(ch, count)])
                  (lands + (if ch.card.is_land then count else 0))
                  (creatures + (if ch.card.is_creature then count else 0)) acc) st').decks.length
              = st'.decks.length + (cts.map term).sum) := by
          intro cts
          induction cts with
          | nil => intro st'; simp
          | cons c0 cts' ih2 =>
            intro st'
            rw [List.foldl_cons, List.map_cons, List.sum_cons]
            by_cases hskip : (max_suffix rest < remaining - c0)
            · rw [if_pos (by simpa using hskip), ih2]
              have : term c0 = 0 := by rw [hterm]; simp only []; rw [if_pos hskip]
              rw [this]
              omega
            · rw [if_neg (by simpa using hskip), ih2, ih]
              have : term c0 = specCount rules rest (remaining - c0)
                  (lands + (if ch.card.is_land then c0 else 0))
                  (creatures + (if ch.card.is_creature then c0 else 0)) := by
                rw [hterm]
                simp only []
                rw [if_neg hskip]
              rw [this]
              omega
        rw [hinner]
        have hstd : ({ st with rngIdx := st.rngIdx + 1 } : BFState).decks = st.decks := rfl
        rw [hstd]
        congr 1
        -- replace the shuffled count list by the plain range via the
        -- permutation property of σN
        have hperm := (hσN st.rngIdx
          (List.range' ch.min_count
            (min ch.max_count (remaining - min_suffix rest) + 1 - ch.min_count))).map term
        rw [hperm.sum_eq]
        -- align the truncated range with the full choice range
        rw [specCount]
        have htrunc := sum_range'_truncate
          (fun t => if t ≤ remaining then
              specCount rules rest (remaining - t)
                (lands + (if ch.card.is_land then t else 0))
                (creatures + (if ch.card.is_creature then t else 0))
            else 0)
          (min ch.max_count (remaining - min_suffix rest) + 1 - ch.min_count)
          (ch.max_count + 1 - ch.min_count) ch.min_count (by omega) ?hzero
        case hzero =>
          intro t hlow hhigh
          simp only []
          by_cases hle : t ≤ remaining
          · rw [if_pos hle]
            apply spec_zero_lt_min
            omega
          · rw [if_neg hle]
        rw [choiceTakes, htrunc]
        apply congrArg
        apply List.map_congr_left
        intro t ht
        rw [List.mem_range'_1] at ht
        have htrem : t ≤ remaining := by omega
        rw [hterm]
        simp only []
        rw [if_pos htrem]
        by_cases hskip : (max_suffix rest < remaining - t)
        · rw [if_pos hskip, spec_zero_gt_max hskip]
        · rw [if_neg hskip]

theorem sum_sum_swap (A B : List Nat) (F : Nat → Nat → Nat) :
    (A.map (fun u => (B.map (fun v => F u v)).sum)).sum =
      (B.map (fun v => (A.map (fun u => F u v)).sum)).sum := by
  induction A with
  | nil =>
    simp only [List.map_nil, List.sum_nil]
    symm
    apply List.sum_eq_zero
    intro x hx
    obtain ⟨v, _, rfl⟩ := List.mem_map.mp hx
    simp
  | cons a A' ih =>
    simp only [List.map_cons, List.sum_cons]
    rw [ih, ← List.sum_map_add]

theorem specCount_swap {rules : Option DeckRules} (x y : CardChoice)
    (l : List CardChoice) (r lands creatures : Nat) :
    specCount rules (y :: x :: l) r lands creatures =
      specCount rules (x :: y :: l) r lands creatures := by
  have key : ∀ (u v : CardChoice) (r lands creatures : Nat),
      specCount rules (u :: v :: l) r lands creatures =
        ((choiceTakes u).map (fun t₁ =>
          ((choiceTakes v).map (fun t₂ =>
            if t₁ + t₂ ≤ r then
              specCount rules l (r - t₁ - t₂)
                (lands + (if u.card.is_land then t₁ else 0) +
                  (if v.card.is_land then t₂ else 0))
                (creatures + (if u.card.is_creature then t₁ else 0) +
                  (if v.card.is_creature then t₂ else 0))
            else 0)).sum)).sum := by
    intro u v r lands creatures
    rw [specCount]
    congr 1
    apply List.map_congr_left
    intro t₁ _
    by_cases h1 : t₁ ≤ r
    · rw [if_pos h1, specCount]
      congr 1
      apply List.map_congr_left
      intro t₂ _
      by_cases h2 : t₂ ≤ r - t₁
      · have h12 : t₁ + t₂ ≤ r := by omega
        rw [if_pos h2, if_pos h12]
      · have h12 : ¬(t₁ + t₂ ≤ r) := by omega
        rw [if_neg h2, if_neg h12]
    · rw [if_neg h1]
      symm
      apply List.sum_eq_zero
      intro z hz
      obtain ⟨t₂, _, rfl⟩ := List.mem_map.mp hz
      have h12 : ¬(t₁ + t₂ ≤ r) := by omega
      rw [if_neg h12]
  rw [key y x r lands creatures, key x y r lands creatures]
  rw [sum_sum_swap]
  congr 1
  apply List.map_congr_left
  intro a _
  congr 1
  apply List.map_congr_left
  intro b _
  by_cases h : b + a ≤ r
  · have h' : a + b ≤ r := by omega
    rw [if_pos h, if_pos h']
    have harg : r - b - a = r - a - b := by omega
    rw [harg,
      Nat.add_right_comm lands (if y.card.is_land then b else 0)
        (if x.card.is_land then a else 0),
      Nat.add_right_comm creatures (if y.card.is_creature then b else 0)
        (if x.card.is_creature then a else 0)]
  · have h' : ¬(a + b ≤ r) := by omega
    rw [if_neg h, if_neg h']

theorem specCount_perm {rules : Option DeckRules} :
    ∀ {cs cs' : List CardChoice}, cs.Perm cs' →
      ∀ (r l c : Nat), specCount rules cs r l c = specCount rules cs' r l c := by
  intro cs cs' h
  induction h with
  | nil => intro r l c; rfl
  | cons x _ ih =>
    intro r l c
    rw [specCount, specCount]
    congr 1
    apply List.map_congr_left
    intro t _
    by_cases ht : t ≤ r
    · rw [if_pos ht, if_pos ht, ih]
    · rw [if_neg ht, if_neg ht]
  | swap x y l' =>
    intro r l c
    exact specCount_swap x y l' r l c
  | trans _ _ ih₁ ih₂ =>
    intro r l c
    rw [ih₁, ih₂]

theorem helperTakes_le {cutoff : Nat} {f : Nat → Nat → Nat → Nat × Bool}
    {remaining lands creatures : Nat} {isL isC : Bool} :
    ∀ (takes : List Nat) (total : Nat) (flag : Bool), total ≤ cutoff →
      (helperTakes cutoff f remaining lands creatures isL isC takes total flag).1 ≤ cutoff := by
  intro takes
  induction takes with
  | nil => intro total flag h; exact h
  | cons take rest ih =>
    intro total flag h
    rw [helperTakes]
    by_cases hbr : remaining < take
    · rw [if_pos hbr]; exact h
    · rw [if_neg hbr]
      dsimp only
      by_cases hcap : cutoff < total +
          (f (remaining - take) (lands + (if isL then take else 0))
            (creatures + (if isC then take else 0))).1
      · rw [if_pos hcap]
      · rw [if_neg hcap]
        exact ih _ _ (by omega)

theorem helper_le {cutoff maxL maxC : Nat} {rules : DeckRules} (hcut : 1 ≤ cutoff) :
    ∀ (cs : List CardChoice) (r l c : Nat),
      (helper cutoff maxL maxC rules cs r l c).1 ≤ cutoff := by
  intro cs
  induction cs with
  | nil =>
    intro r l c
    rw [helper]
    by_cases hpr : (maxL < l || maxC < c) = true
    · rw [if_pos hpr]; omega
    · rw [if_neg hpr]
      by_cases hleaf : (r = 0 && rules.validate l c) = true
      · rw [if_pos hleaf]; omega
      · rw [if_neg hleaf]; omega
  | cons ch rest ih =>
    intro r l c
    rw [helper]
    by_cases hpr : (maxL < l || maxC < c) = true
    · rw [if_pos hpr]; omega
    · rw [if_neg hpr]
      exact helperTakes_le _ _ _ (by omega)

theorem helperTakes_flag {cutoff : Nat} {f : Nat → Nat → Nat → Nat × Bool}
    {remaining lands creatures : Nat} {isL isC : Bool}
    (hf1 : ∀ a b c, (f a b c).1 ≤ cutoff)
    (hf2 : ∀ a b c, (f a b c).2 = true → (f a b c).1 = cutoff) :
    ∀ (takes : List Nat) (total : Nat) (flag : Bool), total ≤ cutoff →
      (flag = true → total = cutoff) →
      (helperTakes cutoff f remaining lands creatures isL isC takes total flag).2 = true →
      (helperTakes cutoff f remaining lands creatures isL isC takes total flag).1 = cutoff := by
  intro takes
  induction takes with
  | nil =>
    intro total flag hle hinv hflag
    exact hinv hflag
  | cons take rest ih =>
    intro total flag hle hinv hflag
    rw [helperTakes] at hflag ⊢
    by_cases hbr : remaining < take
    · rw [if_pos hbr] at hflag ⊢
      exact hinv hflag
    · rw [if_neg hbr] at hflag ⊢
      dsimp only at hflag ⊢
      by_cases hcap : cutoff < total +
          (f (remaining - take) (lands + (if isL then take else 0))
            (creatures + (if isC then take else 0))).1
      · rw [if_pos hcap] at hflag ⊢
      · rw [if_neg hcap] at hflag ⊢
        apply ih _ _ (by omega) ?hinv hflag
        intro hor
        rw [Bool.or_eq_true] at hor
        have hchild1 := hf1 (remaining - take) (lands + (if isL then take else 0))
          (creatures + (if isC then take else 0))
        rcases hor with h | h
        · have := hinv h
          omega
        · have := hf2 _ _ _ h
          omega

theorem helper_flag {cutoff maxL maxC : Nat} {rules : DeckRules} (hcut : 1 ≤ cutoff) :
    ∀ (cs : List CardChoice) (r l c : Nat),
      (helper cutoff maxL maxC rules cs r l c).2 = true →
      (helper cutoff maxL maxC rules cs r l c).1 = cutoff := by
  intro cs
  induction cs with
  | nil =>
    intro r l c hflag
    rw [helper] at hflag
    by_cases hpr : (maxL < l || maxC < c) = true
    · rw [if_pos hpr] at hflag; simp at hflag
    · rw [if_neg hpr] at hflag
      by_cases hleaf : (r = 0 && rules.validate l c) = true
      · rw [if_pos hleaf] at hflag; simp at hflag
      · rw [if_neg hleaf] at hflag; simp at hflag
  | cons ch rest ih =>
    intro r l c hflag
    rw [helper] at hflag ⊢
    by_cases hpr : (maxL < l || maxC < c) = true
    · rw [if_pos hpr] at hflag; simp at hflag
    · rw [if_neg hpr] at hflag ⊢
      exact helperTakes_flag (fun a b c => helper_le hcut rest a b c)
        (fun a b c => ih a b c) _ _ _ (by omega) (by simp) hflag

theorem helperTakes_exact {cutoff remaining lands creatures : Nat} {isL isC : Bool}
    {f : Nat → Nat → Nat → Nat × Bool} {g : Nat → Nat}
    (hchild : ∀ take, take ≤ remaining →
      (f (remaining - take) (lands + (if isL then take else 0))
          (creatures + (if isC then take else 0))).2 = false →
        (f (remaining - take) (lands + (if isL then take else 0))
          (creatures + (if isC then take else 0))).1 = g take) :
    ∀ (n a : Nat) (total : Nat) (flag : Bool),
      (helperTakes cutoff f remaining lands creatures isL isC
        (List.range' a n) total flag).2 = false →
      flag = false ∧
        (helperTakes cutoff f remaining lands creatures isL isC
            (List.range' a n) total flag).1 =
          total + ((List.range' a n).map (fun t => if t ≤ remaining then g t else 0)).sum := by
  intro n
  induction n with
  | zero =>
    intro a total flag hflag
    simp only [List.range'] at hflag ⊢
    rw [helperTakes] at hflag ⊢
    exact ⟨hflag, by simp⟩
  | succ n' ih =>
    intro a total flag hflag
    rw [List.range'_succ] at hflag ⊢
    rw [helperTakes] at hflag ⊢
    by_cases hbr : remaining < a
    · rw [if_pos hbr] at hflag ⊢
      refine ⟨hflag, ?_⟩
      have hz : ((a :: List.range' (a + 1) n').map
          (fun t => if t ≤ remaining then g t else 0)).sum = 0 := by
        apply List.sum_eq_zero
        intro x hx
        obtain ⟨t, ht, rfl⟩ := List.mem_map.mp hx
        rcases List.mem_cons.mp ht with rfl | hmem
        · rw [if_neg (by omega)]
        · rw [List.mem_range'_1] at hmem
          rw [if_neg (by omega)]
      omega
    · rw [if_neg hbr] at hflag ⊢
      dsimp only at hflag ⊢
      by_cases hcap : cutoff < total +
          (f (remaining - a) (lands + (if isL then a else 0))
            (creatures + (if isC then a else 0))).1
      · rw [if_pos hcap] at hflag
        simp at hflag
      · rw [if_neg hcap] at hflag ⊢
        obtain ⟨hflag', hval⟩ := ih (a + 1) _ _ hflag
        rw [Bool.or_eq_false_iff] at hflag'
        obtain ⟨hf0, hr0⟩ := hflag'
        refine ⟨hf0, ?_⟩
        rw [hval, List.map_cons, List.sum_cons,
          if_pos (by omega : a ≤ remaining),
          ← hchild a (by omega) hr0]
        omega

theorem helper_exact {cutoff ds : Nat} {rules : DeckRules} :
    ∀ (cs : List CardChoice) (r l c : Nat), l + r ≤ ds → c + r ≤ ds →
      (helper cutoff (pyOrNat rules.max_lands ds) (pyOrNat rules.max_creatures ds)
        rules cs r l c).2 = false →
      (helper cutoff (pyOrNat rules.max_lands ds) (pyOrNat rules.max_creatures ds)
          rules cs r l c).1 = specCount (some rules) cs r l c := by
  intro cs
  induction cs with
  | nil =>
    intro r l c hl hc _
    rw [helper]
    by_cases hpr : (pyOrNat rules.max_lands ds < l ||
        pyOrNat rules.max_creatures ds < c) = true
    · rw [if_pos hpr]
      rw [Bool.or_eq_true, decide_eq_true_eq, decide_eq_true_eq] at hpr
      symm
      rcases hpr with h | h
      · cases hm : rules.max_lands with
        | none => rw [hm] at h; simp [pyOrNat] at h; omega
        | some m =>
          rw [hm] at h
          by_cases hm0 : m = 0
          · subst hm0; simp [pyOrNat] at h; omega
          · rw [pyOrNat, if_neg hm0] at h
            exact spec_zero_max_lands hm (by simp [land_min_suffix]; omega)
      · cases hm : rules.max_creatures with
        | none => rw [hm] at h; simp [pyOrNat] at h; omega
        | some m =>
          rw [hm] at h
          by_cases hm0 : m = 0
          · subst hm0; simp [pyOrNat] at h; omega
          · rw [pyOrNat, if_neg hm0] at h
            exact spec_zero_max_creatures hm (by simp [creature_min_suffix]; omega)
    · rw [if_neg hpr]
      rw [specCount, leafOK]
      by_cases hleaf : (r = 0 && rules.validate l c) = true
      · rw [if_pos hleaf, if_pos hleaf]
      · rw [if_neg hleaf, if_neg hleaf]
  | cons ch rest ih =>
    intro r l c hl hc hflag
    rw [helper] at hflag ⊢
    by_cases hpr : (pyOrNat rules.max_lands ds < l ||
        pyOrNat rules.max_creatures ds < c) = true
    · rw [if_pos hpr]
      rw [Bool.or_eq_true, decide_eq_true_eq, decide_eq_true_eq] at hpr
      symm
      rcases hpr with h | h
      · cases hm : rules.max_lands with
        | none => rw [hm] at h; simp [pyOrNat] at h; omega
        | some m =>
          rw [hm] at h
          by_cases hm0 : m = 0
          · subst hm0; simp [pyOrNat] at h; omega
          · rw [pyOrNat, if_neg hm0] at h
            exact spec_zero_max_lands hm (by omega)
      · cases hm : rules.max_creatures with
        | none => rw [hm] at h; simp [pyOrNat] at h; omega
        | some m =>
          rw [hm] at h
          by_cases hm0 : m = 0
          · subst hm0; simp [pyOrNat] at h; omega
          · rw [pyOrNat, if_neg hm0] at h
            exact spec_zero_max_creatures hm (by omega)
    · rw [if_neg hpr] at hflag ⊢
      have hchild : ∀ take, take ≤ r →
          (helper cutoff (pyOrNat rules.max_lands ds) (pyOrNat rules.max_creatures ds)
              rules rest (r - take) (l + (if ch.card.is_land then take else 0))
              (c + (if ch.card.is_creature then take else 0))).2 = false →
          (helper cutoff (pyOrNat rules.max_lands ds) (pyOrNat rules.max_creatures ds)
              rules rest (r - take) (l + (if ch.card.is_land then take else 0))
              (c + (if ch.card.is_creature then take else 0))).1 =
            specCount (some rules) rest (r - take)
              (l + (if ch.card.is_land then take else 0))
              (c + (if ch.card.is_creature then take else 0)) := by
        intro take htake hfl
        apply ih
        · by_cases hland : ch.card.is_land = true <;> simp [hland] <;> omega
        · by_cases hcrea : ch.card.is_creature = true <;> simp [hcrea] <;> omega
        · exact hfl
      rw [choiceTakes] at hflag ⊢
      obtain ⟨_, hval⟩ := helperTakes_exact hchild
        (ch.max_count + 1 - ch.min_count) ch.min_count 0 false hflag
      rw [hval, specCount, choiceTakes]
      omega

theorem capAt_eq_min (cutoff v : Nat) : capAt cutoff v = min v cutoff := by
  rw [capAt]
  split <;> omega

theorem dpInner_spec {cutoff ds current wcur : Nat} :
    ∀ (n a : Nat) (next : Nat → Nat) (t : Nat),
      dpInner cutoff ds current wcur (List.range' a n) next t =
        if current + a ≤ t ∧ t < current + a + n ∧ t ≤ ds then
          capAt cutoff (next t + wcur)
        else next t := by
  intro n
  induction n with
  | zero =>
    intro a next t
    simp only [List.range']
    rw [dpInner, if_neg (by omega)]
  | succ n' ih =>
    intro a next t
    rw [List.range'_succ, dpInner]
    by_cases hds : ds < current + a
    · rw [if_pos hds, if_neg (by omega)]
    · rw [if_neg hds, ih]
      by_cases hta : t = current + a
      · subst hta
        rw [if_neg (by omega), if_pos (by omega)]
        rw [fupd, if_pos rfl]
      · by_cases hwin : current + (a + 1) ≤ t ∧ t < current + (a + 1) + n' ∧ t ≤ ds
        · rw [if_pos hwin, if_pos (by omega)]
          rw [fupd, if_neg (by omega)]
        · rw [if_neg hwin, if_neg (by omega)]
          rw [fupd, if_neg (by omega)]

theorem dpMiddle_foldl {cutoff ds : Nat} {a n : Nat} {ways : Nat → Nat} :
    ∀ (currents : List Nat) (next : Nat → Nat) (t : Nat),
      dpMiddle cutoff ds (List.range' a n) ways currents next t =
        List.foldl (fun v cur =>
          if ways cur ≠ 0 ∧ cur + a ≤ t ∧ t < cur + a + n ∧ t ≤ ds then
            capAt cutoff (v + ways cur)
          else v) (next t) currents := by
  intro currents
  induction currents with
  | nil => intro next t; rw [dpMiddle]; rfl
  | cons cur rest ih =>
    intro next t
    rw [dpMiddle, List.foldl_cons]
    by_cases hz : ways cur = 0
    · rw [if_pos hz, ih, if_neg (by intro hc; exact hc.1 hz)]
    · rw [if_neg hz, ih]
      congr 1
      rw [dpInner_spec]
      by_cases hwin : cur + a ≤ t ∧ t < cur + a + n ∧ t ≤ ds
      · rw [if_pos hwin, if_pos ⟨hz, hwin⟩]
      · rw [if_neg hwin, if_neg (by intro hc; exact hwin hc.2)]

theorem foldl_cap_sum {cutoff : Nat} (P : Nat → Prop) [DecidablePred P] (w : Nat → Nat) :
    ∀ (currents : List Nat) (v : Nat), v ≤ cutoff →
      List.foldl (fun v cur => if P cur then capAt cutoff (v + w cur) else v) v currents =
        min (v + (currents.map (fun cur => if P cur then w cur else 0)).sum) cutoff := by
  intro currents
  induction currents with
  | nil =>
    intro v hv
    simp only [List.foldl_nil, List.map_nil, List.sum_nil, Nat.add_zero]
    omega
  | cons cur rest ih =>
    intro v hv
    rw [List.foldl_cons, List.map_cons, List.sum_cons]
    by_cases hp : P cur
    · rw [if_pos hp, if_pos hp, capAt_eq_min]
      rw [ih _ (by omega)]
      omega
    · rw [if_neg hp, if_neg hp]
      rw [ih _ hv]
      omega

theorem single_point_sum (w : Nat → Nat) (t a : Nat) :
    ∀ (m : Nat),
      ((List.range m).map (fun cur => if cur + a = t then w cur else 0)).sum =
        if a ≤ t ∧ t - a < m then w (t - a) else 0 := by
  intro m
  induction m with
  | zero => simp
  | succ m' ih =>
    rw [List.range_succ, List.map_append, List.sum_append, ih]
    simp only [List.map_cons, List.map_nil, List.sum_cons, List.sum_nil]
    by_cases h1 : a ≤ t ∧ t - a < m'
    · rw [if_pos h1, if_neg (by omega), if_pos (by omega)]
      omega
    · rw [if_neg h1]
      by_cases h2 : m' + a = t
      · rw [if_pos h2, if_pos (by omega)]
        have harg : t - a = m' := by omega
        rw [harg]
        omega
      · rw [if_neg h2, if_neg ?hc]
        · omega
        case hc =>
          rintro ⟨ha, hlt⟩
          by_cases hl : t - a < m'
          · exact h1 ⟨ha, hl⟩
          · exact h2 (by omega)

theorem window_reindex {ds : Nat} (ways : Nat → Nat) {t : Nat} (hds : t ≤ ds) :
    ∀ (n a : Nat),
      ((List.range (ds + 1)).map (fun cur =>
        if cur + a ≤ t ∧ t < cur + a + n then ways cur else 0)).sum =
        ((List.range' a n).map (fun take =>
          if take ≤ t then ways (t - take) else 0)).sum := by
  intro n
  induction n with
  | zero =>
    intro a
    simp only [List.range']
    rw [List.map_nil, List.sum_nil]
    apply List.sum_eq_zero
    intro x hx
    obtain ⟨cur, _, rfl⟩ := List.mem_map.mp hx
    rw [if_neg (by omega)]
  | succ n' ih =>
    intro a
    rw [List.range'_succ, List.map_cons, List.sum_cons, ← ih (a + 1)]
    have hsplit : ∀ cur,
        (if cur + a ≤ t ∧ t < cur + a + (n' + 1) then ways cur else 0) =
          (if cur + a = t then ways cur else 0) +
            (if cur + (a + 1) ≤ t ∧ t < cur + (a + 1) + n' then ways cur else 0) := by
      intro cur
      by_cases h1 : cur + a = t
      · rw [if_pos h1, if_pos (by omega), if_neg (by omega)]
        omega
      · rw [if_neg h1]
        by_cases h2 : cur + (a + 1) ≤ t ∧ t < cur + (a + 1) + n'
        · rw [if_pos h2, if_pos (by omega)]
          omega
        · have hcneg : ¬(cur + a ≤ t ∧ t < cur + a + (n' + 1)) := by
            rintro ⟨hle, hlt⟩
            by_cases h3 : cur + (a + 1) ≤ t
            · exact h2 ⟨h3, by omega⟩
            · exact h1 (by omega)
          rw [if_neg h2, if_neg hcneg]
    calc ((List.range (ds + 1)).map (fun cur =>
            if cur + a ≤ t ∧ t < cur + a + (n' + 1) then ways cur else 0)).sum
        = ((List.range (ds + 1)).map (fun cur =>
            (if cur + a = t then ways cur else 0) +
              (if cur + (a + 1) ≤ t ∧ t < cur + (a + 1) + n' then ways cur else 0))).sum := by
          apply congrArg
          exact List.map_congr_left (fun cur _ => hsplit cur)
      _ = ((List.range (ds + 1)).map (fun cur => if cur + a = t then ways cur else 0)).sum +
            ((List.range (ds + 1)).map (fun cur =>
              if cur + (a + 1) ≤ t ∧ t < cur + (a + 1) + n' then ways cur else 0)).sum := by
          rw [List.sum_map_add]
      _ = (if a ≤ t then ways (t - a) else 0) +
            ((List.range (ds + 1)).map (fun cur =>
              if cur + (a + 1) ≤ t ∧ t < cur + (a + 1) + n' then ways cur else 0)).sum := by
          rw [single_point_sum]
          congr 1
          by_cases h : a ≤ t
          · rw [if_pos ⟨h, by omega⟩, if_pos h]
          · rw [if_neg (by omega), if_neg h]

theorem min_sum_min (cutoff : Nat) (F : Nat → Nat) :
    ∀ (L : List Nat),
      min ((L.map (fun x => min (F x) cutoff)).sum) cutoff = min ((L.map F).sum) cutoff := by
  intro L
  induction L with
  | nil => simp
  | cons x rest ih =>
    rw [List.map_cons, List.map_cons, List.sum_cons, List.sum_cons]
    omega

theorem spec_none_snoc :
    ∀ (cs : List CardChoice) (ch : CardChoice) (t : Nat),
      specCount none (cs ++ [ch]) t 0 0 =
        ((choiceTakes ch).map (fun take =>
          if take ≤ t then specCount none cs (t - take) 0 0 else 0)).sum := by
  intro cs
  induction cs with
  | nil =>
    intro ch t
    rw [List.nil_append, specCount]
    congr 1
  | cons c cs' ih =>
    intro ch t
    rw [List.cons_append, specCount]
    calc ((choiceTakes c).map (fun u =>
            if u ≤ t then specCount none (cs' ++ [ch]) (t - u)
              (0 + (if c.card.is_land then u else 0))
              (0 + (if c.card.is_creature then u else 0)) else 0)).sum
        = ((choiceTakes c).map (fun u =>
            ((choiceTakes ch).map (fun take =>
              if u + take ≤ t then specCount none cs' (t - u - take) 0 0 else 0)).sum)).sum := by
          apply congrArg
          apply List.map_congr_left
          intro u _
          by_cases hu : u ≤ t
          · rw [if_pos hu, spec_none_indep _ _ _ _ 0 0, ih]
            apply congrArg
            apply List.map_congr_left
            intro take _
            by_cases htk : take ≤ t - u
            · rw [if_pos htk, if_pos (by omega)]
            · rw [if_neg htk, if_neg (by omega)]
          · rw [if_neg hu]
            symm
            apply List.sum_eq_zero
            intro x hx
            obtain ⟨take, _, rfl⟩ := List.mem_map.mp hx
            rw [if_neg (by omega)]
      _ = ((choiceTakes ch).map (fun take =>
            ((choiceTakes c).map (fun u =>
              if u + take ≤ t then specCount none cs' (t - u - take) 0 0 else 0)).sum)).sum := by
          rw [sum_sum_swap]
      _ = ((choiceTakes ch).map (fun take =>
            if take ≤ t then specCount none (c :: cs') (t - take) 0 0 else 0)).sum := by
          apply congrArg
          apply List.map_congr_left
          intro take _
          by_cases htk : take ≤ t
          · rw [if_pos htk, specCount]
            apply congrArg
            apply List.map_congr_left
            intro u _
            by_cases hu : u ≤ t - take
            · rw [if_pos hu, if_pos (by omega)]
              have harg : t - take - u = t - u - take := by omega
              rw [harg]
              apply spec_none_indep
            · rw [if_neg hu, if_neg (by omega)]
          · rw [if_neg htk]
            apply List.sum_eq_zero
            intro x hx
            obtain ⟨u, _, rfl⟩ := List.mem_map.mp hx
            rw [if_neg (by omega)]

theorem dpStep_beyond {cutoff ds : Nat} (ways : Nat → Nat) (ch : CardChoice)
    {t : Nat} (h : ds < t) : dpStep cutoff ds ways ch t = 0 := by
  rw [dpStep, choiceTakes, dpMiddle_foldl]
  have hgen : ∀ (l : List Nat),
      List.foldl (fun v cur =>
        if ways cur ≠ 0 ∧ cur + ch.min_count ≤ t ∧
            t < cur + ch.min_count + (ch.max_count + 1 - ch.min_count) ∧ t ≤ ds then
          capAt cutoff (v + ways cur)
        else v) 0 l = 0 := by
    intro l
    induction l with
    | nil => rfl
    | cons cur rest ihl =>
      rw [List.foldl_cons, if_neg (by rintro ⟨_, _, _, hds⟩; omega)]
      exact ihl
  exact hgen _

theorem dpWays_spec {cutoff ds : Nat} (hcut : 1 ≤ cutoff) :
    ∀ (cs : List CardChoice),
      (∀ t, t ≤ ds → dpWays cutoff ds cs t = min (specCount none cs t 0 0) cutoff) ∧
      (∀ t, ds < t → dpWays cutoff ds cs t = 0) := by
  intro cs
  induction cs using List.reverseRecOn with
  | nil =>
    constructor
    · intro t _
      rw [dpWays, List.foldl_nil, fupd, specCount, leafOK]
      by_cases h0 : t = 0
      · rw [if_pos h0, if_pos (by simp [h0])]
        omega
      · rw [if_neg h0, if_neg (by simp [h0])]
        omega
    · intro t ht
      rw [dpWays, List.foldl_nil, fupd, if_neg (by omega)]
  | append_singleton cs ch ih =>
    have hstep : dpWays cutoff ds (cs ++ [ch]) = dpStep cutoff ds (dpWays cutoff ds cs) ch := by
      rw [dpWays, dpWays, List.foldl_append, List.foldl_cons, List.foldl_nil]
    constructor
    · intro t ht
      rw [hstep, dpStep, choiceTakes, dpMiddle_foldl,
        foldl_cap_sum _ (dpWays cutoff ds cs) _ 0 (by omega)]
      rw [Nat.zero_add]
      have hdrop : ((List.range (ds + 1)).map (fun cur =>
          if dpWays cutoff ds cs cur ≠ 0 ∧ cur + ch.min_count ≤ t ∧
              t < cur + ch.min_count + (ch.max_count + 1 - ch.min_count) ∧ t ≤ ds then
            dpWays cutoff ds cs cur else 0)).sum =
          ((List.range (ds + 1)).map (fun cur =>
            if cur + ch.min_count ≤ t ∧
                t < cur + ch.min_count + (ch.max_count + 1 - ch.min_count) then
              dpWays cutoff ds cs cur else 0)).sum := by
        apply congrArg
        apply List.map_congr_left
        intro cur _
        by_cases hz : dpWays cutoff ds cs cur = 0
        · by_cases hw : cur + ch.min_count ≤ t ∧
              t < cur + ch.min_count + (ch.max_count + 1 - ch.min_count)
          · rw [if_pos hw, hz, if_neg (by rintro ⟨hc, _⟩; exact hc rfl)]
          · rw [if_neg hw, if_neg (by rintro ⟨_, h1, h2, _⟩; exact hw ⟨h1, h2⟩)]
        · by_cases hw : cur + ch.min_count ≤ t ∧
              t < cur + ch.min_count + (ch.max_count + 1 - ch.min_count)
          · rw [if_pos hw, if_pos ⟨hz, hw.1, hw.2, ht⟩]
          · rw [if_neg hw, if_neg (by rintro ⟨_, h1, h2, _⟩; exact hw ⟨h1, h2⟩)]
      rw [hdrop, window_reindex _ ht]
      have hpoint : ((List.range' ch.min_count (ch.max_count + 1 - ch.min_count)).map
          (fun take => if take ≤ t then dpWays cutoff ds cs (t - take) else 0)).sum =
          ((List.range' ch.min_count (ch.max_count + 1 - ch.min_count)).map
            (fun take => min (if take ≤ t then specCount none cs (t - take) 0 0 else 0)
              cutoff)).sum := by
        apply congrArg
        apply List.map_congr_left
        intro take _
        by_cases htk : take ≤ t
        · rw [if_pos htk, if_pos htk, ih.1 (t - take) (by omega)]
        · rw [if_neg htk, if_neg htk]
          omega
      rw [hpoint, min_sum_min, spec_none_snoc, choiceTakes]
    · intro t ht
      rw [hstep]
      exact dpStep_beyond _ _ ht

/-- C1: when count_possible_decks reports estimated = false its total is
exact: it equals the number of compositions brute_force_decks emits for the
same choices, deck size and rules when run with no result limit (for any
seed-derived shuffles). -/
theorem count_exact_when_not_estimated
    (choices : List CardChoice) (ds : Nat) (rules : Option DeckRules) (cutoff : Nat)
    (σC : List CardChoice → List CardChoice) (σN : Nat → List Nat → List Nat)
    (hσC : (σC choices).Perm choices) (hσN : ∀ k l, (σN k l).Perm l)
    (hest : (count_possible_decks choices ds rules cutoff).estimated = false) :
    (count_possible_decks choices ds rules cutoff).total =
      (brute_force_decks choices
        { deck_size := ds, brute_force_limit := none, deck_rules := rules } σC σN).length := by
  have hbf : (brute_force_decks choices
      { deck_size := ds, brute_force_limit := none, deck_rules := rules } σC σN).length =
      specCount rules choices ds 0 0 := by
    rw [brute_force_decks]
    have := @backtrack_decks_length rules σN hσN (σC choices) ds [] 0 0 {}
    simp only [] at this
    rw [this]
    simp only [List.length_nil, Nat.zero_add]
    exact specCount_perm hσC ds 0 0
  rw [hbf]
  match rules with
  | none =>
    rw [count_possible_decks] at hest ⊢
    simp only [] at hest ⊢
    rw [decide_eq_false_iff_not, not_le] at hest
    by_cases hcut : 1 ≤ cutoff
    · have := (dpWays_spec hcut choices).1 ds (le_refl ds)
      rw [this] at hest ⊢
      omega
    · omega
  | some r =>
    rw [count_possible_decks] at hest ⊢
    simp only [] at hest ⊢
    exact helper_exact choices ds 0 0 (by omega) (by omega) hest

theorem count_exact_when_not_estimated_witness :
    (((fun (l : List CardChoice) => l) [⟨sampleBolt, 0, 1⟩]).Perm [⟨sampleBolt, 0, 1⟩]) ∧
      (count_possible_decks [⟨sampleBolt, 0, 1⟩] 1 none 10).estimated = false ∧
      (count_possible_decks [⟨sampleBolt, 0, 1⟩] 1 none 10).total =
        (brute_force_decks [⟨sampleBolt, 0, 1⟩]
          { deck_size := 1, brute_force_limit := none, deck_rules := none }
          (fun l => l) (fun _ l => l)).length :=
  ⟨List.Perm.refl _, by decide,
    count_exact_when_not_estimated [⟨sampleBolt, 0, 1⟩] 1 none 10
      (fun l => l) (fun _ l => l) (List.Perm.refl _) (fun _ l => List.Perm.refl l)
      (by decide)⟩

/-- C8 counterexample: with DeckRules present and a choice set whose number
of legal compositions exactly reaches the cutoff, count_possible_decks
reports an exact, non-estimated count instead of the claimed
estimated = true with bounds (cutoff, cutoff + cutoff): the claim's
"reaches the estimate cutoff" fails at equality. -/
theorem count_at_cutoff_counterexample :
    (brute_force_decks [⟨sampleBolt, 0, 4⟩, ⟨samplePump, 0, 4⟩]
        { deck_size := 4, brute_force_limit := none, deck_rules := some {} }
        (fun l => l) (fun _ l => l)).length = 5 ∧
      count_possible_decks [⟨sampleBolt, 0, 4⟩, ⟨samplePump, 0, 4⟩] 4 (some {}) 5 =
        { total := 5, estimated := false, lower_bound := some 5, upper_bound := some 5 } := by
  decide

/-- C8 (amended): for a positive cutoff, whenever the number of legal
compositions strictly exceeds the estimate cutoff, count_possible_decks
reports total = cutoff, estimated = true and the bound pair
(cutoff, cutoff + cutoff) rather than a wrong exact number. -/
theorem count_estimates_when_cutoff_exceeded
    (choices : List CardChoice) (ds : Nat) (rules : Option DeckRules) (cutoff : Nat)
    (hcut : 1 ≤ cutoff) (hover : cutoff < specCount rules choices ds 0 0) :
    count_possible_decks choices ds rules cutoff =
      { total := cutoff, estimated := true, lower_bound := some cutoff,
        upper_bound := some (cutoff + cutoff) } := by
  match rules with
  | none =>
    rw [count_possible_decks]
    have := (dpWays_spec hcut choices).1 ds (le_refl ds)
    rw [this]
    have hmin : min (specCount none choices ds 0 0) cutoff = cutoff := by omega
    rw [hmin]
    rw [decide_eq_true (le_refl cutoff)]
    simp
  | some r =>
    rw [count_possible_decks]
    have hflag : (helper cutoff (pyOrNat r.max_lands ds) (pyOrNat r.max_creatures ds)
        r choices ds 0 0).2 = true := by
      by_cases h : (helper cutoff (pyOrNat r.max_lands ds) (pyOrNat r.max_creatures ds)
          r choices ds 0 0).2 = true
      · exact h
      · exfalso
        have hex := @helper_exact cutoff ds r
          choices ds 0 0 (by omega) (by omega) (by simpa using h)
        have hle := @helper_le cutoff (pyOrNat r.max_lands ds)
          (pyOrNat r.max_creatures ds) r hcut choices ds 0 0
        omega
    have hval := helper_flag hcut choices ds 0 0 hflag
    rw [hflag, hval]
    simp

theorem count_estimates_when_cutoff_exceeded_witness :
    1 ≤ 3 ∧ 3 < specCount none [⟨sampleBolt, 0, 4⟩, ⟨samplePump, 0, 4⟩] 4 0 0 ∧
      count_possible_decks [⟨sampleBolt, 0, 4⟩, ⟨samplePump, 0, 4⟩] 4 none 3 =
        { total := 3, estimated := true, lower_bound := some 3, upper_bound := some 6 } :=
  ⟨by decide, by decide,
    count_estimates_when_cutoff_exceeded [⟨sampleBolt, 0, 4⟩, ⟨samplePump, 0, 4⟩] 4 none 3
      (by decide) (by decide)⟩

/-- C6: the search is deterministic given the seed: the emitted sequence is
a pure function of the inputs and of the shuffle stream the seeded
generator produces, so two invocations with identical inputs and identical
seed-derived shuffles return the identical ordered deck list. -/
theorem brute_force_deterministic (choices : List CardChoice) (cfg : SearchConfig)
    (σC₁ σC₂ : List CardChoice → List CardChoice)
    (σN₁ σN₂ : Nat → List Nat → List Nat)
    (h1 : σC₁ = σC₂) (h2 : σN₁ = σN₂) :
    brute_force_decks choices cfg σC₁ σN₁ = brute_force_decks choices cfg σC₂ σN₂ := by
  rw [h1, h2]

theorem backtrack_decks_emitted {limit : Option Nat} {rules : Option DeckRules}
    {σN : Nat → List Nat → List Nat} (hσN : ∀ k l, (σN k l).Perm l) :
    ∀ (cs : List CardChoice) (remaining : Nat) (chosen : List (CardChoice × Nat))
      (lands creatures : Nat) (st : BFState),
      ∀ d ∈ (backtrack limit rules σN cs remaining chosen lands creatures st).decks,
        d ∈ st.decks ∨ EmittedFrom rules chosen cs remaining lands creatures d := by
  intro cs
  induction cs with
  | nil =>
    intro remaining chosen lands creatures st d hd
    revert hd
    rw [backtrack.eq_def]
    dsimp only
    by_cases hlim : (match limit with
        | some lim => decide (lim ≤ st.counter)
        | none => false) = true
    · rw [if_pos hlim]
      intro hd
      exact Or.inl hd
    · rw [if_neg hlim]
      by_cases hpr : (decide (remaining < min_suffix []) ||
          decide (max_suffix [] < remaining)) = true
      · rw [if_pos hpr]
        intro hd
        exact Or.inl hd
      · rw [if_neg hpr]
        by_cases hru : rules_pruned rules lands creatures [] = true
        · rw [if_pos hru]
          intro hd
          exact Or.inl hd
        · rw [if_neg hru]
          by_cases hleaf : (decide (remaining = 0) && leafOK rules lands creatures) = true
          · rw [if_pos hleaf]
            intro hd
            simp only [] at hd
            rcases List.mem_append.mp hd with hd | hd
            · exact Or.inl hd
            · right
              rw [List.mem_singleton] at hd
              rw [Bool.and_eq_true, decide_eq_true_eq] at hleaf
              refine ⟨[], by simpa using hd, rfl, by simp, by simp [hleaf.1], ?_⟩
              simpa using hleaf.2
          · rw [if_neg hleaf]
            intro hd
            exact Or.inl hd
  | cons ch rest ih =>
    intro remaining chosen lands creatures st d hd
    revert hd
    rw [backtrack.eq_def]
    dsimp only
    split
    · intro hd
      exact Or.inl hd
    · split
      · intro hd
        exact Or.inl hd
      · split
        · intro hd
          exact Or.inl hd
        · next hpr hru =>
          intro hd
          rw [Bool.or_eq_true, decide_eq_true_eq, decide_eq_true_eq] at hpr
          push_neg at hpr
          have hmincons : min_suffix (ch :: rest) = ch.min_count + min_suffix rest := by
            simp [min_suffix]
          have hcounts : ∀ count ∈ σN st.rngIdx
              (List.range' ch.min_count
                (min ch.max_count (remaining - min_suffix rest) + 1 - ch.min_count)),
              ch.min_count ≤ count ∧
                count ≤ min ch.max_count (remaining - min_suffix rest) := by
            intro count hcount
            have := (hσN st.rngIdx _).mem_iff.mp hcount
            rw [List.mem_range'_1] at this
            omega
          have hinner : ∀ (cts : List Nat) (st' : BFState),
              (∀ count ∈ cts, ch.min_count ≤ count ∧
                count ≤ min ch.max_count (remaining - min_suffix rest)) →
              ∀ d ∈ (cts.foldl (fun acc count =>
                  if decide (max_suffix rest < remaining - count) then acc
                  else backtrack limit rules σN rest (remaining - count)
                    (chosen ++ [(ch, count)])
                    (lands + (if ch.card.is_land then count else 0))
                    (creatures + (if ch.card.is_creature then count else 0)) acc)
                st').decks,
                d ∈ st'.decks ∨
                  EmittedFrom rules chosen (ch :: rest) remaining lands creatures d := by
            intro cts
            induction cts with
            | nil => intro st' _ d hd; exact Or.inl hd
            | cons c0 cts' ih2 =>
              intro st' hbnd d hd
              rw [List.foldl_cons] at hd
              have hc0 := hbnd c0 (by simp)
              have hc0rem : c0 ≤ remaining := by omega
              have hd2 := ih2 _ (fun c hc => hbnd c (by simp [hc])) d hd
              rcases hd2 with hd2 | hd2
              · by_cases hskip : (max_suffix rest < remaining - c0)
                · rw [if_pos (by simpa using hskip)] at hd2
                  exact Or.inl hd2
                · rw [if_neg (by simpa using hskip)] at hd2
                  have hd3 := ih (remaining - c0) (chosen ++ [(ch, c0)])
                    (lands + (if ch.card.is_land then c0 else 0))
                    (creatures + (if ch.card.is_creature then c0 else 0)) st' d hd2
                  rcases hd3 with hd3 | hd3
                  · exact Or.inl hd3
                  · right
                    obtain ⟨tail, hdeq, hfst, hrange, hsum, hok⟩ := hd3
                    refine ⟨(ch, c0) :: tail, ?_, ?_, ?_, ?_, ?_⟩
                    · rw [hdeq, List.append_assoc]
                      rfl
                    · simp [hfst]
                    · intro p hp
                      rcases List.mem_cons.mp hp with rfl | hmem
                      · exact ⟨hc0.1, le_trans hc0.2 (min_le_left _ _)⟩
                      · exact hrange p hmem
                    · simp only [List.map_cons, List.sum_cons]
                      omega
                    · simp only [List.map_cons, List.sum_cons]
                      rw [← Nat.add_assoc, ← Nat.add_assoc]
                      exact hok
              · exact Or.inr hd2
          exact hinner _
            { decks := st.decks, counter := st.counter, rngIdx := st.rngIdx + 1 }
            hcounts d hd

end Mtg

namespace Mtg

theorem buildDeck_append_distinct :
    ∀ (pairs : List (CardChoice × Nat)) (init : DeckList),
      (pairs.map (fun p => p.1.card)).Nodup →
      (∀ p ∈ pairs, ∀ q ∈ init, q.1 ≠ p.1.card) →
      pairs.foldl (fun d p => deckSet d p.1.card p.2) init =
        init ++ pairs.map (fun p => (p.1.card, p.2)) := by
  intro pairs
  induction pairs with
  | nil => intro init _ _; simp
  | cons p ps ihp =>
    intro init hnd hdisj
    rw [List.map_cons, List.nodup_cons] at hnd
    obtain ⟨hhead, htail⟩ := hnd
    rw [List.foldl_cons]
    have hset : deckSet init p.1.card p.2 = init ++ [(p.1.card, p.2)] := by
      rw [deckSet, if_neg ?hany]
      case hany =>
        rw [Bool.not_eq_true, List.any_eq_false]
        intro q hq
        simp only [decide_eq_true_eq]
        exact hdisj p (by simp) q hq
    rw [hset, ihp]
    · rw [List.append_assoc]
      rfl
    · exact htail
    · intro p' hp' q hq
      rcases List.mem_append.mp hq with hq | hq
      · exact hdisj p' (by simp [hp']) q hq
      · rw [List.mem_singleton] at hq
        subst hq
        intro heq
        exact hhead (List.mem_map.mpr ⟨p', hp', heq.symm⟩)

theorem find_assoc_mapped :
    ∀ (pairs : List (CardChoice × Nat)) (ch : CardChoice) (cnt : Nat),
      (pairs.map (fun p => p.1.card)).Nodup → (ch, cnt) ∈ pairs →
      (pairs.map (fun p => (p.1.card, p.2))).find?
        (fun q => decide (q.1 = ch.card)) = some (ch.card, cnt) := by
  intro pairs
  induction pairs with
  | nil => intro ch cnt _ hmem; simp at hmem
  | cons p ps ihp =>
    intro ch cnt hnd hmem
    rw [List.map_cons, List.nodup_cons] at hnd
    obtain ⟨hhead, htail⟩ := hnd
    rw [List.map_cons]
    rcases List.mem_cons.mp hmem with heq | hmem'
    · rw [List.find?_cons_of_pos _ (by rw [← heq]; simp)]
      rw [← heq]
    · by_cases hcard : p.1.card = ch.card
      · exfalso
        apply hhead
        rw [hcard]
        exact List.mem_map.mpr ⟨(ch, cnt), hmem', rfl⟩
      · rw [List.find?_cons_of_neg _ (by simpa using hcard)]
        exact ihp ch cnt htail hmem'

end Mtg

namespace Mtg

/-- C2 counterexample: with two choices carrying the same card, the dict
write at the leaf overwrites the first count, and the emitted composition
does not sum to the configured deck size. -/
theorem brute_force_sum_counterexample :
    brute_force_decks [⟨sampleBolt, 2, 2⟩, ⟨sampleBolt, 1, 1⟩]
        { deck_size := 3, brute_force_limit := none, deck_rules := none }
        (fun l => l) (fun _ l => l) = [[(sampleBolt, 1)]] ∧
      deck_size [(sampleBolt, 1)] = 1 := by
  decide

/-- C2 (amended): when the cards of the choices are pairwise distinct,
every composition brute_force_decks emits sums exactly to the configured
deck size, respects every per-card count range, and satisfies the supplied
DeckRules. -/
theorem brute_force_emits_valid
    (choices : List CardChoice) (cfg : SearchConfig)
    (σC : List CardChoice → List CardChoice) (σN : Nat → List Nat → List Nat)
    (hσC : (σC choices).Perm choices) (hσN : ∀ k l, (σN k l).Perm l)
    (hnd : (choices.map (fun ch => ch.card)).Nodup) :
    ∀ d ∈ brute_force_decks choices cfg σC σN,
      deck_size d = cfg.deck_size ∧
      (∀ ch ∈ choices, ch.min_count ≤ deckLookup d ch.card ∧
        deckLookup d ch.card ≤ ch.max_count) ∧
      leafOK cfg.deck_rules (landCount d) (creatureCount d) = true := by
  intro d hd
  rw [brute_force_decks] at hd
  have hinv := backtrack_decks_emitted hσN (σC choices) cfg.deck_size [] 0 0 {} d hd
  rcases hinv with hmem | hem
  · simp at hmem
  · obtain ⟨tail, hdeq, hfst, hrange, hsum, hok⟩ := hem
    rw [List.nil_append] at hdeq
    have hndtail : (tail.map (fun p => p.1.card)).Nodup := by
      have h1 : tail.map (fun p => p.1.card) = (σC choices).map (fun ch => ch.card) := by
        rw [← hfst, List.map_map]
        rfl
      rw [h1]
      exact ((hσC.map (fun ch => ch.card)).nodup_iff).mpr hnd
    have hdmap : d = tail.map (fun p => (p.1.card, p.2)) := by
      rw [hdeq, buildDeck]
      rw [buildDeck_append_distinct tail [] hndtail (by intro p _ q hq; simp at hq)]
      rw [List.nil_append]
    refine ⟨?_, ?_, ?_⟩
    · rw [hdmap, deck_size, List.map_map]
      have : ((fun p => p.2) ∘ fun (p : CardChoice × Nat) => (p.1.card, p.2)) =
          (fun p => p.2) := rfl
      rw [this, hsum]
    · intro ch hch
      have hchs : ch ∈ σC choices := hσC.mem_iff.mpr hch
      rw [← hfst] at hchs
      obtain ⟨p, hp, hpeq⟩ := List.mem_map.mp hchs
      obtain ⟨pc, pn⟩ := p
      simp only [] at hpeq
      subst hpeq
      have hfind := find_assoc_mapped tail pc pn hndtail hp
      have hlook : deckLookup d pc.card = pn := by
        rw [hdmap, deckLookup, hfind]
      rw [hlook]
      exact hrange (pc, pn) hp
    · have hl : landCount d =
          (tail.map (fun p => if p.1.card.is_land then p.2 else 0)).sum := by
        rw [hdmap, landCount, List.map_map]
        rfl
      have hc : creatureCount d =
          (tail.map (fun p => if p.1.card.is_creature then p.2 else 0)).sum := by
        rw [hdmap, creatureCount, List.map_map]
        rfl
      rw [hl, hc]
      simpa using hok

theorem brute_force_emits_valid_witness :
    (((fun (l : List CardChoice) => l) [⟨sampleForest, 0, 2⟩, ⟨sampleElf, 0, 2⟩]).Perm
        [⟨sampleForest, 0, 2⟩, ⟨sampleElf, 0, 2⟩]) ∧
      (([⟨sampleForest, 0, 2⟩, ⟨sampleElf, 0, 2⟩] : List CardChoice).map
        (fun ch => ch.card)).Nodup ∧
      ∀ d ∈ brute_force_decks [⟨sampleForest, 0, 2⟩, ⟨sampleElf, 0, 2⟩]
          { deck_size := 2, brute_force_limit := none,
            deck_rules := some { min_lands := some 1 } } (fun l => l) (fun _ l => l),
        deck_size d = 2 ∧
        (∀ ch ∈ ([⟨sampleForest, 0, 2⟩, ⟨sampleElf, 0, 2⟩] : List CardChoice),
          ch.min_count ≤ deckLookup d ch.card ∧ deckLookup d ch.card ≤ ch.max_count) ∧
        leafOK (some { min_lands := some 1 }) (landCount d) (creatureCount d) = true :=
  ⟨List.Perm.refl _, by decide,
    brute_force_emits_valid [⟨sampleForest, 0, 2⟩, ⟨sampleElf, 0, 2⟩]
      { deck_size := 2, brute_force_limit := none, deck_rules := some { min_lands := some 1 } }
      (fun l => l) (fun _ l => l) (List.Perm.refl _) (fun _ l => List.Perm.refl l)
      (by decide)⟩

theorem brute_force_deterministic_witness :
    ((fun (l : List CardChoice) => l) = (fun l => l)) ∧
      brute_force_decks [⟨sampleBolt, 0, 2⟩] { deck_size := 1 } (fun l => l) (fun _ l => l) =
        brute_force_decks [⟨sampleBolt, 0, 2⟩] { deck_size := 1 } (fun l => l) (fun _ l => l) :=
  ⟨rfl, brute_force_deterministic [⟨sampleBolt, 0, 2⟩] { deck_size := 1 }
    (fun l => l) (fun l => l) (fun _ l => l) (fun _ l => l) rfl rfl⟩

end Mtg
